import Mathlib

/-! Build-graph registry, pools and scheduler.

A shallow embedding of `src/schedule.h`, `src/schedule.cc` and `src/state.cc`.

Conventions of the embedding.

* An `Edge*` / `Node*` is an address; it is modelled by a natural number
  (`EdgePtr`, `NodePtr`).  Inside `State` the pointee lives in an arena and the
  pointer is its index there.
* `edge->weight()` is declared in `graph.h`, which is missing from the
  sources.  The scheduler and the pool only read it, so it is passed to every
  function that needs it as `weight : EdgePtr → Int`.
* A C++ `int` is modelled by an `Int`, and the `int` additions and subtractions
  of `Pool` by `wrapInt`, which wraps the sum around at 32 bits as the compiled
  code does (signed overflow is undefined behaviour in C++).  Statements about
  mathematical sums of weights carry a range hypothesis.
* `assert` failures and library undefined behaviour are modelled by `none`.
-/

namespace Ninja

/-- An `Edge*`. -/
abbrev EdgePtr := Nat

/-- A `Node*`. -/
abbrev NodePtr := Nat

/-! ## `std::priority_queue` -/

/-- Modelled from the spec: `EdgeWeightComparison` is declared in `graph.h`, which is
missing from the sources.  The spec says that edges compare by weight, heavier
edges being dispatched first, so the comparator handed to `std::priority_queue`
(whose `top()` is a greatest element) is "less than" on weights. -/
def EdgeWeightComparison (weight : EdgePtr → Int) (a b : EdgePtr) : Bool :=
  decide (weight a < weight b)

/-- The element `std::priority_queue::top()` returns, for a queue holding the
elements of the list: an element `m` such that `comp m x` is false for every
element `x`.  Which of several equivalent greatest elements the library returns
is left open by the standard; the model returns the one pushed first.  `none`
on the empty queue, where `top()` is undefined. -/
def pqTop (comp : EdgePtr → EdgePtr → Bool) : List EdgePtr → Option EdgePtr
  | [] => none
  | x :: xs =>
    match pqTop comp xs with
    | none => some x
    | some m => if comp x m then some m else some x

/-- The queue after `std::priority_queue::pop()`: the element `top()` returned is
removed, every other element stays. -/
def pqPop (comp : EdgePtr → EdgePtr → Bool) (q : List EdgePtr) : List EdgePtr :=
  match pqTop comp q with
  | none => q
  | some m => q.erase m

/-! ## `Scheduler` (schedule.h, schedule.cc) -/

/-- The two private members of `struct Scheduler`: `std::set<Edge*> ready_` and
the `std::priority_queue` named `prioritized_` (the elements it holds, in push
order). -/
structure Scheduler where
  ready_ : Finset EdgePtr
  prioritized_ : List EdgePtr
deriving DecidableEq

namespace Scheduler

/-- `Scheduler::Scheduler()`: both containers start empty. -/
def new : Scheduler := { ready_ := ∅, prioritized_ := [] }

/-- `Scheduler::Schedule`.  The argument is non-null by its type, which is what
`assert(edge)` checks. -/
def Schedule (s : Scheduler) (edge : EdgePtr) : Scheduler :=
  if edge ∈ s.ready_ then s
  else { ready_ := insert edge s.ready_, prioritized_ := s.prioritized_ ++ [edge] }

/-- `Scheduler::NextUnit`.  The outer `Option` is `none` when the call has no
defined result (`top()` of an empty queue); the inner one is the returned
`Edge*`, `none` for `NULL`. -/
def NextUnit (weight : EdgePtr → Int) (s : Scheduler) : Option (Option EdgePtr × Scheduler) :=
  if s.ready_ = ∅ then some (none, s)
  else
    match pqTop (EdgeWeightComparison weight) s.prioritized_ with
    | none => none
    | some edge =>
      some (some edge,
        { ready_ := s.ready_.erase edge,
          prioritized_ := pqPop (EdgeWeightComparison weight) s.prioritized_ })

/-- `Scheduler::UnitsWaiting`: `ready_.size()`.  The C++ function narrows the
size to `int`, which keeps the value for every set of fewer than `2^31` edges. -/
def UnitsWaiting (s : Scheduler) : Nat := s.ready_.card

/-- The scheduler states a program can be in: the freshly constructed scheduler,
and whatever `Schedule` and `NextUnit` make of such a state. -/
inductive Reachable (weight : EdgePtr → Int) : Scheduler → Prop
  | new : Reachable weight Scheduler.new
  | Schedule {s : Scheduler} (edge : EdgePtr) :
      Reachable weight s → Reachable weight (s.Schedule edge)
  | NextUnit {s s' : Scheduler} {r : Option EdgePtr} :
      Reachable weight s → s.NextUnit weight = some (r, s') → Reachable weight s'

/-- The ready set and the priority queue hold the same edges, the queue each of
them once. -/
def Consistent (s : Scheduler) : Prop :=
  s.prioritized_.Nodup ∧ ∀ e, e ∈ s.prioritized_ ↔ e ∈ s.ready_

/-- The caller's side of `Schedule`: the edges of the list are scheduled one
after another, first to last. -/
def ScheduleAll (s : Scheduler) (edges : List EdgePtr) : Scheduler :=
  edges.foldl Scheduler.Schedule s

/-- The caller's dispatch loop: `NextUnit` is called until it returns `NULL`, and
the edges it returned are collected in call order.  `fuel` bounds the number of
calls; `none` when it runs out or a call has no defined result. -/
def drain (weight : EdgePtr → Int) : Nat → Scheduler → Option (List EdgePtr)
  | 0, _ => none
  | fuel + 1, s =>
    match s.NextUnit weight with
    | none => none
    | some (none, _) => some []
    | some (some edge, s') => (drain weight fuel s').map (fun rest => edge :: rest)

end Scheduler

/-- The weights of the dispatch-order example: edges `0, 1, 2, 3` weigh
`5, 1, 5, 3`, every other edge `0`. -/
def weights5153 (e : EdgePtr) : Int := [5, 1, 5, 3].getD e 0

/-! ## `Pool` (state.cc) -/

/-- The value a 32-bit two's-complement `int` holds when the mathematical result
of an `int` addition or subtraction is `x`: `x` itself when it is a value of
`int`, and `x` wrapped around by a multiple of `2^32` otherwise. -/
def wrapInt (x : Int) : Int := (x + 2147483648) % 4294967296 - 2147483648

/-- States that `x` is a value of `int`: `INT_MIN ≤ x ≤ INT_MAX`. -/
abbrev InIntRange (x : Int) : Prop := -2147483648 ≤ x ∧ x ≤ 2147483647

/-- The data members of `struct Pool` that `state.cc` uses: `name_`, `depth_`,
`current_use_` and the `deque<Edge*>` named `delayed_` (front of the deque
first). -/
structure Pool where
  name_ : String
  depth_ : Int
  current_use_ : Int
  delayed_ : List EdgePtr
deriving DecidableEq

namespace Pool

/-- Modelled from the spec: the constructor `Pool(name, depth)` is declared in
`state.h`, which is missing from the sources.  A new pool has nothing in use and
nothing delayed. -/
def new (name : String) (depth : Int) : Pool :=
  { name_ := name, depth_ := depth, current_use_ := 0, delayed_ := [] }

/-- `Pool::EdgeScheduled`; `current_use_ += edge.weight()` is an `int` addition. -/
def EdgeScheduled (weight : EdgePtr → Int) (p : Pool) (edge : EdgePtr) : Pool :=
  if p.depth_ ≠ 0 then { p with current_use_ := wrapInt (p.current_use_ + weight edge) }
  else p

/-- `Pool::EdgeFinished`; `current_use_ -= edge.weight()` is an `int` subtraction. -/
def EdgeFinished (weight : EdgePtr → Int) (p : Pool) (edge : EdgePtr) : Pool :=
  if p.depth_ ≠ 0 then { p with current_use_ := wrapInt (p.current_use_ - weight edge) }
  else p

/-- The value of `current_use_` after `current_use_ += edge.weight()` has been
run for the edges of the list, first to last, starting from `current_use`. -/
def usageAfter (weight : EdgePtr → Int) (current_use : Int) (edges : List EdgePtr) : Int :=
  edges.foldl (fun u e => wrapInt (u + weight e)) current_use

/-- `Pool::DelayEdge`; `none` when `assert(depth_ != 0)` fails. -/
def DelayEdge (p : Pool) (edge : EdgePtr) : Option Pool :=
  if p.depth_ ≠ 0 then some { p with delayed_ := p.delayed_ ++ [edge] } else none

/-- The `while` loop of `Pool::RetrieveReadyEdges(set<Edge*>*)`.  The first
argument is the content of `delayed_` at the loop head (it is the `delayed_` of
the pool argument); `released` logs the edges handed to `ready_queue->insert`,
in call order.  The sum in the loop test is an `int` addition. -/
def retrieveLoop (weight : EdgePtr → Int) :
    List EdgePtr → Pool → Finset EdgePtr → List EdgePtr → Pool × Finset EdgePtr × List EdgePtr
  | [], p, ready_queue, released => (p, ready_queue, released)
  | edge :: rest, p, ready_queue, released =>
    if wrapInt (p.current_use_ + weight edge) > p.depth_ then (p, ready_queue, released)
    else
      retrieveLoop weight rest (EdgeScheduled weight { p with delayed_ := rest } edge)
        (insert edge ready_queue) (released ++ [edge])

/-- `Pool::RetrieveReadyEdges(set<Edge*>* ready_queue)`: the pool afterwards, the
ready set afterwards, and the edges that were inserted into it, in the order of
the calls. -/
def RetrieveReadyEdges (weight : EdgePtr → Int) (p : Pool) (ready_queue : Finset EdgePtr) :
    Pool × Finset EdgePtr × List EdgePtr :=
  retrieveLoop weight p.delayed_ p ready_queue []

/-- The `while` loop of `Pool::RetrieveReadyEdges(Scheduler&)`, with the same
conventions as `retrieveLoop`; `released` logs the edges handed to
`scheduler.Schedule`. -/
def retrieveLoopScheduler (weight : EdgePtr → Int) :
    List EdgePtr → Pool → Scheduler → List EdgePtr → Pool × Scheduler × List EdgePtr
  | [], p, scheduler, released => (p, scheduler, released)
  | edge :: rest, p, scheduler, released =>
    if wrapInt (p.current_use_ + weight edge) > p.depth_ then (p, scheduler, released)
    else
      retrieveLoopScheduler weight rest (EdgeScheduled weight { p with delayed_ := rest } edge)
        (scheduler.Schedule edge) (released ++ [edge])

/-- `Pool::RetrieveReadyEdges(Scheduler& scheduler)`. -/
def RetrieveReadyEdgesScheduler (weight : EdgePtr → Int) (p : Pool) (scheduler : Scheduler) :
    Pool × Scheduler × List EdgePtr :=
  retrieveLoopScheduler weight p.delayed_ p scheduler []

/-- The pool states a program can be in: a freshly constructed pool, and whatever
the member functions make of such a state (`DelayEdge` only when its assertion
holds). -/
inductive Reachable (weight : EdgePtr → Int) : Pool → Prop
  | new (name : String) (depth : Int) : Reachable weight (Pool.new name depth)
  | EdgeScheduled {p : Pool} (edge : EdgePtr) :
      Reachable weight p → Reachable weight (p.EdgeScheduled weight edge)
  | EdgeFinished {p : Pool} (edge : EdgePtr) :
      Reachable weight p → Reachable weight (p.EdgeFinished weight edge)
  | DelayEdge {p p' : Pool} (edge : EdgePtr) :
      Reachable weight p → p.DelayEdge edge = some p' → Reachable weight p'
  | RetrieveReadyEdges {p : Pool} (ready_queue : Finset EdgePtr) :
      Reachable weight p → Reachable weight (p.RetrieveReadyEdges weight ready_queue).1
  | RetrieveReadyEdgesScheduler {p : Pool} (scheduler : Scheduler) :
      Reachable weight p →
      Reachable weight (p.RetrieveReadyEdgesScheduler weight scheduler).1

end Pool

/-- The weights of the pool-admission example: edges `0, 1, 2` weigh `3, 3, 1`,
every other edge `0`. -/
def weights331 (e : EdgePtr) : Int := [3, 3, 1].getD e 0

/-- The pool of the admission example: depth 4, nothing in use, edges `0, 1, 2`
delayed in that order. -/
def pool4 : Pool := { name_ := "link", depth_ := 4, current_use_ := 0, delayed_ := [0, 1, 2] }

/-! ## `std::map` -/

/-- The value `std::map::find` reaches for the key, `none` for `end()`.  A map is
modelled by the list of its entries; no key occurs twice in a list built with
`mapAssign`. -/
def mapFind {β : Type} (key : String) : List (String × β) → Option β
  | [] => none
  | (k, v) :: m => if k = key then some v else mapFind key m

/-- The map after `m[key] = value`: the entry of the key is overwritten when there
is one, and a new entry is made otherwise. -/
def mapAssign {β : Type} (key : String) (value : β) : List (String × β) → List (String × β)
  | [] => [(key, value)]
  | (k, v) :: m => if k = key then (key, value) :: m else (k, v) :: mapAssign key value m

/-! ## `Rule`, `Node`, `Edge` (graph.h) -/

/-- Modelled from the spec: `struct Rule` is declared in `graph.h`, which is missing
from the sources; `state.cc` uses only its name. -/
structure Rule where
  name_ : String
deriving DecidableEq

/-- Modelled from the spec: the per-build status of a node is one of unknown, clean
and dirty (`state.cc` prints it so in `State::Dump`). -/
inductive Status where
  | unknown
  | clean
  | dirty
deriving DecidableEq

/-- Modelled from the spec: `struct Node` is declared in `graph.h`, which is missing
from the sources.  A node has its path, the edge that produces it (`in_edge_`,
`none` for `NULL`), the edges that consume it (`out_edges_`) and its status. -/
structure Node where
  path_ : String
  in_edge_ : Option EdgePtr
  out_edges_ : List EdgePtr
  status_ : Status
deriving DecidableEq

namespace Node

/-- Modelled from the spec: `Node::Node(path)`, a node nothing produces or consumes
yet, with unknown status. -/
def new (path : String) : Node :=
  { path_ := path, in_edge_ := none, out_edges_ := [], status_ := Status.unknown }

/-- Modelled from the spec: `Node::AddOutEdge` registers a consuming edge, after the
ones registered before. -/
def AddOutEdge (n : Node) (edge : EdgePtr) : Node :=
  { n with out_edges_ := n.out_edges_ ++ [edge] }

/-- Modelled from the spec: `Node::set_in_edge` sets the producing edge. -/
def set_in_edge (n : Node) (edge : EdgePtr) : Node :=
  { n with in_edge_ := some edge }

/-- Modelled from the spec: `Node::ResetState` puts the status back to unknown. -/
def ResetState (n : Node) : Node :=
  { n with status_ := Status.unknown }

end Node

/-- Modelled from the spec: `struct Edge` is declared in `graph.h`, which is missing
from the sources.  `state.cc` uses the members `rule_`, `pool_` (a `Pool*`, modelled
by the name of the pool), `inputs_`, `outputs_` and `outputs_ready_`; `env_`, which
always points to the bindings of the owning state, is left out. -/
structure Edge where
  rule_ : Rule
  pool_ : String
  inputs_ : List NodePtr
  outputs_ : List NodePtr
  outputs_ready_ : Bool
deriving DecidableEq

/-! ## `State` (state.cc) -/

/-- The data members of `struct State` that `state.cc` uses.  `nodes` is the store
of the `Node` objects allocated by `GetNode`: a `Node*` is an index into it.
`edges_` holds the `Edge` objects themselves, an `Edge*` being an index into it
(every edge `AddEdge` allocates is pushed onto `edges_` and none is removed).
`pools_` holds the pools by value.  `warnings` is the log of the calls of
`Warning`, oldest first. -/
structure State where
  paths_ : List (String × NodePtr)
  nodes : List Node
  rules_ : List (String × Rule)
  pools_ : List (String × Pool)
  edges_ : List Edge
  defaults_ : List NodePtr
  warnings : List String
deriving DecidableEq

/-- `State::kPhonyRule`. -/
def kPhonyRule : Rule := { name_ := "phony" }

/-- `State::kDefaultPool`, constructed as `Pool("", 0)`. -/
def kDefaultPool : Pool := Pool.new "" 0

namespace State

/-- A state whose members are all default-constructed, as they are when the body
of the constructor starts. -/
def empty : State :=
  { paths_ := [], nodes := [], rules_ := [], pools_ := [], edges_ := [], defaults_ := [],
    warnings := [] }

/-- `State::LookupRule`. -/
def LookupRule (s : State) (rule_name : String) : Option Rule :=
  mapFind rule_name s.rules_

/-- `State::AddRule`; `none` when the assertion fails. -/
def AddRule (s : State) (rule : Rule) : Option State :=
  if s.LookupRule rule.name_ = none then
    some { s with rules_ := mapAssign rule.name_ rule s.rules_ }
  else none

/-- `State::LookupPool`. -/
def LookupPool (s : State) (pool_name : String) : Option Pool :=
  mapFind pool_name s.pools_

/-- `State::AddPool`; `none` when the assertion fails. -/
def AddPool (s : State) (pool : Pool) : Option State :=
  if s.LookupPool pool.name_ = none then
    some { s with pools_ := mapAssign pool.name_ pool s.pools_ }
  else none

/-- `State::State()`: the phony rule and the default pool are registered.  Both
assertions hold on the empty state, so the fallback is never taken. -/
def new : State :=
  ((empty.AddRule kPhonyRule).bind (fun s => s.AddPool kDefaultPool)).getD empty

/-- `State::AddEdge`: the state afterwards and the returned `Edge*`.  The new
edge is as `Edge::Edge()` leaves it, no inputs, no outputs and outputs not ready,
with `rule_` and `pool_` set. -/
def AddEdge (s : State) (rule : Rule) (pool : String) : State × EdgePtr :=
  ({ s with edges_ := s.edges_ ++
      [{ rule_ := rule, pool_ := pool, inputs_ := [], outputs_ := [],
         outputs_ready_ := false }] },
   s.edges_.length)

/-- `State::LookupNode`.  The call records a metric and has no other effect, so
the state is not returned. -/
def LookupNode (s : State) (path : String) : Option NodePtr :=
  mapFind path s.paths_

/-- `State::GetNode`: the state afterwards and the returned `Node*`. -/
def GetNode (s : State) (path : String) : State × NodePtr :=
  match s.LookupNode path with
  | some node => (s, node)
  | none =>
    ({ s with nodes := s.nodes ++ [Node.new path],
              paths_ := mapAssign path s.nodes.length s.paths_ },
     s.nodes.length)

/-- The text `Warning` is called with in `State::AddOut`. -/
def multipleRulesWarning (path : String) : String :=
  "multiple rules generate " ++ path ++ ". build will not be correct; continuing anyway"

/-- `State::AddIn`. -/
def AddIn (s : State) (edge : EdgePtr) (path : String) : State :=
  let (s1, node) := s.GetNode path
  { s1 with
    edges_ := List.modify (fun e => { e with inputs_ := e.inputs_ ++ [node] }) edge s1.edges_,
    nodes := List.modify (fun n => n.AddOutEdge edge) node s1.nodes }

/-- `State::AddOut`.  A `Node*` that is not in the store cannot be read; the
model then takes the branch without warning. -/
def AddOut (s : State) (edge : EdgePtr) (path : String) : State :=
  let (s1, node) := s.GetNode path
  let warned :=
    match s1.nodes[node]? with
    | some n => if n.in_edge_ ≠ none then s1.warnings ++ [multipleRulesWarning path]
                else s1.warnings
    | none => s1.warnings
  { s1 with
    edges_ := List.modify (fun e => { e with outputs_ := e.outputs_ ++ [node] }) edge s1.edges_,
    nodes := List.modify (fun n => n.set_in_edge edge) node s1.nodes,
    warnings := warned }

/-- `State::AddDefault`: the returned `bool`, the state afterwards and the content
of `*err` afterwards, `err` being its content before. -/
def AddDefault (s : State) (path : String) (err : String) : Bool × State × String :=
  match s.LookupNode path with
  | none => (false, s, "unknown target '" ++ path ++ "'")
  | some node => (true, { s with defaults_ := s.defaults_ ++ [node] }, err)

/-- The out-edges of the node a `Node*` points to (`(*out)->out_edges()`); a
pointer that is not in the store is read as a node without out-edges. -/
def out_edges (s : State) (node : NodePtr) : List EdgePtr :=
  match s.nodes[node]? with
  | some n => n.out_edges_
  | none => []

/-- The two nested loops of `State::RootNodes`: `root_nodes` after them. -/
def rootScan (s : State) : List NodePtr :=
  s.edges_.foldl
    (fun root_nodes e =>
      e.outputs_.foldl
        (fun acc out => if (s.out_edges out).isEmpty then acc ++ [out] else acc)
        root_nodes)
    []

/-- `State::RootNodes`: the returned vector and the content of `*err` afterwards;
`none` when the assertion at the end fails. -/
def RootNodes (s : State) (err : String) : Option (List NodePtr × String) :=
  let root_nodes := s.rootScan
  let err' :=
    if ¬ s.edges_.isEmpty ∧ root_nodes.isEmpty then
      "could not determine root nodes of build graph"
    else err
  if s.edges_.isEmpty ∨ ¬ root_nodes.isEmpty then some (root_nodes, err') else none

/-- `State::Reset`. -/
def Reset (s : State) : State :=
  { s with
    nodes := s.paths_.foldl (fun nodes kv => List.modify Node.ResetState kv.2 nodes) s.nodes,
    edges_ := s.edges_.map (fun e => { e with outputs_ready_ := false }) }

end State

/-- The calls that change a `State`. -/
inductive Op where
  | AddRule (rule : Rule)
  | AddPool (pool : Pool)
  | AddEdge (rule : Rule) (pool : String)
  | GetNode (path : String)
  | AddIn (edge : EdgePtr) (path : String)
  | AddOut (edge : EdgePtr) (path : String)
  | AddDefault (path : String)
  | Reset
deriving DecidableEq

/-- The path a call hands to `GetNode`, directly or through `AddIn` / `AddOut`. -/
def Op.createdPath : Op → Option String
  | .GetNode path => some path
  | .AddIn _ path => some path
  | .AddOut _ path => some path
  | _ => none

/-- The state after one call; `none` when an assertion of the call fails. -/
def State.step (s : State) : Op → Option State
  | .AddRule rule => s.AddRule rule
  | .AddPool pool => s.AddPool pool
  | .AddEdge rule pool => some (s.AddEdge rule pool).1
  | .GetNode path => some (s.GetNode path).1
  | .AddIn edge path => some (s.AddIn edge path)
  | .AddOut edge path => some (s.AddOut edge path)
  | .AddDefault path => some (s.AddDefault path "").2.1
  | .Reset => some s.Reset

/-- The state after a sequence of calls, first to last. -/
def State.run (s : State) : List Op → Option State
  | [] => some s
  | op :: ops => (s.step op).bind (fun s' => s'.run ops)

/-- The calls that build the graph of the root-node example: an edge reading `A`
and producing `B`, then an edge reading `B` and producing `C`. -/
def chainOps : List Op :=
  [.AddEdge kPhonyRule "", .AddIn 0 "A", .AddOut 0 "B",
   .AddEdge kPhonyRule "", .AddIn 1 "B", .AddOut 1 "C"]

/-! ## Invariants of the registry -/

/-- Every binding of the path table points to a node of the store that has the
path it is bound to. -/
def State.PathsOK (s : State) : Prop :=
  ∀ k n, s.LookupNode k = some n → ∃ node, s.nodes[n]? = some node ∧ node.path_ = k

/-- Every input of a registered edge is a node of the store that has the edge
among its out-edges. -/
def State.InputsOK (s : State) : Prop :=
  ∀ (i : Nat) (e : Edge), s.edges_[i]? = some e → ∀ n ∈ e.inputs_,
    ∃ node : Node, s.nodes[n]? = some node ∧ i ∈ node.out_edges_

/-- Every node of the first store is still in the second one, at the same address,
with its path and with at least the out-edges it had. -/
def NodesKeep (nodes nodes' : List Node) : Prop :=
  ∀ (n : Nat) (node : Node), nodes[n]? = some node →
    ∃ node' : Node, nodes'[n]? = some node' ∧ node'.path_ = node.path_ ∧
      ∀ e ∈ node.out_edges_, e ∈ node'.out_edges_

/-- The edge that produces the node registered for the path: `none` when no node
is registered for it or the node has no in-edge. -/
def State.producer (s : State) (path : String) : Option EdgePtr :=
  (s.LookupNode path).bind (fun n => (s.nodes[n]?).bind (fun node => node.in_edge_))

/-- The total weight of the edges that are in the ready set of the second
scheduler and were not in the ready set of the first. -/
def newlyReadyWeight (weight : EdgePtr → Int) (before after : Scheduler) : Int :=
  (after.ready_ \ before.ready_).sum weight

/-- A pool of depth `INT_MAX` with `INT_MAX - 1` in use and edge `0` (of weight 3
under `weights331`) delayed: charging the edge takes the sum out of the range of
`int`. -/
def poolFull : Pool :=
  { name_ := "link", depth_ := 2147483647, current_use_ := 2147483646, delayed_ := [0] }

/-- A pool of depth 4 with nothing in use in which edge `2` (of weight 1 under
`weights331`) has been delayed twice. -/
def poolTwice : Pool := { name_ := "link", depth_ := 4, current_use_ := 0, delayed_ := [2, 2] }

/-! ## `EditDistance` and `State::SpellcheckNode` -/

/-- One row of the edit-distance table after the row `above`: `diag` and `left`
are the entries up-left and left of the next entry. -/
def editRow (c : Char) (allow_replacements : Bool) :
    List Char → Nat → List Nat → Nat → List Nat
  | [], _, _, _ => []
  | _ :: _, _, [], _ => []
  | d :: ds, diag, a :: above, left =>
    let cur :=
      if allow_replacements then min (diag + (if c = d then 0 else 1)) (min left a + 1)
      else if c = d then diag else min left a + 1
    cur :: editRow c allow_replacements ds a above cur

/-- Modelled from the spec: `EditDistance` is declared in `edit_distance.h`, which is
missing from the sources.  It is the edit distance of the two strings (insertions
and deletions, and substitutions when `allow_replacements` is set), bounded by
`max_edit_distance + 1` when `max_edit_distance` is not 0. -/
def EditDistance (s1 s2 : String) (allow_replacements : Bool) (max_edit_distance : Int) : Int :=
  let last := s1.toList.foldl
    (fun previous c =>
      match previous with
      | [] => []
      | p0 :: above => (p0 + 1) :: editRow c allow_replacements s2.toList p0 above (p0 + 1))
    (List.range (s2.length + 1))
  let distance : Int := (last.getLast?.getD 0 : Nat)
  if max_edit_distance ≠ 0 ∧ distance > max_edit_distance then max_edit_distance + 1
  else distance

/-- `State::SpellcheckNode`, for the edit-distance function given as the first
argument.  The loop runs over the entries of `paths_` in the order of the list;
the accumulator is the pair of `min_distance` and `result`.  A `Node*` of the
table is never `NULL`, which is what `&& i->second` checks. -/
def State.SpellcheckNode (editDistance : String → String → Bool → Int → Int) (s : State)
    (path : String) : Option NodePtr :=
  let kAllowReplacements := true
  let kMaxValidEditDistance : Int := 3
  (s.paths_.foldl
    (fun (acc : Int × Option NodePtr) i =>
      let distance := editDistance i.1 path kAllowReplacements kMaxValidEditDistance
      if distance < acc.1 then (distance, some i.2) else acc)
    (kMaxValidEditDistance + 1, none)).2

/-! ## Graph construction -/

/-- The states the graph-building calls reach from a fresh `State`: `AddEdge`,
`GetNode`, and `AddIn` and `AddOut` for an edge of the edge list, that is, for an
`Edge*` that `AddEdge` returned. -/
inductive State.Built : State → Prop
  | new : State.Built State.new
  | AddEdge {s : State} (rule : Rule) (pool : String) :
      State.Built s → State.Built (s.AddEdge rule pool).1
  | GetNode {s : State} (path : String) :
      State.Built s → State.Built (s.GetNode path).1
  | AddIn {s : State} (edge : EdgePtr) (path : String) :
      State.Built s → edge < s.edges_.length → State.Built (s.AddIn edge path)
  | AddOut {s : State} (edge : EdgePtr) (path : String) :
      State.Built s → edge < s.edges_.length → State.Built (s.AddOut edge path)

/-- Referential integrity of the graph: the path table and the store of nodes
agree (`paths`, `registered`), the nodes an edge lists are in the store (`ptrs`),
out-edges mirror inputs (`counts`, `out_valid`), and in-edges mirror outputs
(`in_edge`, `produced`). -/
structure State.Integrity (s : State) : Prop where
  paths : s.PathsOK
  registered : ∀ (n : Nat) (node : Node), s.nodes[n]? = some node →
    s.LookupNode node.path_ = some n
  ptrs : ∀ (i : Nat) (e : Edge), s.edges_[i]? = some e →
    ∀ n : Nat, n ∈ e.inputs_ ∨ n ∈ e.outputs_ → n < s.nodes.length
  counts : ∀ (n : Nat) (node : Node) (i : Nat) (e : Edge),
    s.nodes[n]? = some node → s.edges_[i]? = some e →
    List.count i node.out_edges_ = List.count n e.inputs_
  out_valid : ∀ (n : Nat) (node : Node), s.nodes[n]? = some node →
    ∀ j : Nat, j ∈ node.out_edges_ → j < s.edges_.length
  in_edge : ∀ (n : Nat) (node : Node) (i : Nat), s.nodes[n]? = some node →
    node.in_edge_ = some i → ∃ e : Edge, s.edges_[i]? = some e ∧ n ∈ e.outputs_
  produced : ∀ (i : Nat) (e : Edge), s.edges_[i]? = some e → ∀ n : Nat, n ∈ e.outputs_ →
    ∃ node : Node, s.nodes[n]? = some node ∧ node.in_edge_ ≠ none

/-- The graph has no cycle: the edges can be numbered so that an edge that
consumes an output of an edge has a larger number than that edge.
`s.edges_.enum` pairs every edge of the edge list with its index, which is its
`Edge*`. -/
def State.Acyclic (s : State) : Prop :=
  ∃ rank : EdgePtr → Nat, ∀ p ∈ s.edges_.enum, ∀ q ∈ s.edges_.enum,
    ∀ n ∈ p.2.outputs_, n ∈ q.2.inputs_ → rank p.1 < rank q.1

/-- The graph in which edge `0` reads `a` and produces `b` and edge `1` reads `b`
and produces `a`. -/
def cycleState : State :=
  ((((((State.new.AddEdge kPhonyRule "").1.AddIn 0 "a").AddOut 0 "b").AddEdge kPhonyRule "").1
    ).AddIn 1 "b").AddOut 1 "a"

/-- The graph of `chainOps`: edge `0` reads `A` and produces `B`, edge `1` reads
`B` and produces `C`. -/
def chainState : State :=
  ((((((State.new.AddEdge kPhonyRule "").1.AddIn 0 "A").AddOut 0 "B").AddEdge kPhonyRule "").1
    ).AddIn 1 "B").AddOut 1 "C"

/-- The graph in which edges `0` and `1` both produce `x`. -/
def twiceProducedState : State :=
  ((((State.new.AddEdge kPhonyRule "").1.AddEdge kPhonyRule "").1).AddOut 0 "x").AddOut 1 "x"

/-- The graph of `chainOps` as a build pass leaves it: `A` was found clean, `B` and
`C` dirty, the outputs of edge `0` are ready, `C` is a default target, and the pool
`link` is registered with 3 in use and the edges `1` and `2` delayed. -/
def staleState : State :=
  { chainState with
    nodes :=
      [{ path_ := "A", in_edge_ := none, out_edges_ := [0], status_ := Status.clean },
       { path_ := "B", in_edge_ := some 0, out_edges_ := [1], status_ := Status.dirty },
       { path_ := "C", in_edge_ := some 1, out_edges_ := [], status_ := Status.dirty }],
    edges_ :=
      [{ rule_ := kPhonyRule, pool_ := "", inputs_ := [0], outputs_ := [1],
         outputs_ready_ := true },
       { rule_ := kPhonyRule, pool_ := "", inputs_ := [1], outputs_ := [2],
         outputs_ready_ := false }],
    pools_ :=
      mapAssign "link" { pool4 with current_use_ := 3, delayed_ := [1, 2] } chainState.pools_,
    defaults_ := [2] }

/-! ## Facts about the priority queue -/

theorem pqTop_eq_none {comp : EdgePtr → EdgePtr → Bool} {q : List EdgePtr} :
    pqTop comp q = none ↔ q = [] := by
  cases q with
  | nil => simp [pqTop]
  | cons x xs =>
    simp only [pqTop]
    cases h : pqTop comp xs with
    | none => simp
    | some m => by_cases hc : comp x m <;> simp [hc]

theorem pqTop_mem {comp : EdgePtr → EdgePtr → Bool} {q : List EdgePtr} {m : EdgePtr}
    (h : pqTop comp q = some m) : m ∈ q := by
  induction q generalizing m with
  | nil => simp [pqTop] at h
  | cons x xs ih =>
    simp only [pqTop] at h
    cases hx : pqTop comp xs with
    | none => simp [hx] at h; simp [h]
    | some m' =>
      simp only [hx] at h
      by_cases hc : comp x m'
      · simp [hc] at h; subst h; exact List.mem_cons_of_mem _ (ih hx)
      · simp [hc] at h; simp [h]

theorem pqTop_weight_max {weight : EdgePtr → Int} {q : List EdgePtr} {m : EdgePtr}
    (h : pqTop (EdgeWeightComparison weight) q = some m) :
    ∀ x ∈ q, weight x ≤ weight m := by
  induction q generalizing m with
  | nil => simp [pqTop] at h
  | cons y ys ih =>
    simp only [pqTop] at h
    cases hy : pqTop (EdgeWeightComparison weight) ys with
    | none =>
      have : ys = [] := pqTop_eq_none.mp hy
      subst this
      simp [hy] at h
      subst h
      simp
    | some m' =>
      simp only [hy] at h
      have ih' := ih hy
      by_cases hc : EdgeWeightComparison weight y m'
      · simp [hc] at h
        subst h
        intro x hx
        rcases List.mem_cons.mp hx with rfl | hx
        · simp [EdgeWeightComparison] at hc; omega
        · exact ih' x hx
      · simp [hc] at h
        subst h
        intro x hx
        simp [EdgeWeightComparison] at hc
        rcases List.mem_cons.mp hx with rfl | hx
        · exact le_refl _
        · exact le_trans (ih' x hx) hc

/-! ## The scheduler invariant -/

theorem Scheduler.consistent_new : Scheduler.new.Consistent := by
  constructor
  · exact List.nodup_nil
  · intro e; simp [Scheduler.new]

theorem Scheduler.consistent_Schedule {s : Scheduler} (h : s.Consistent) (edge : EdgePtr) :
    (s.Schedule edge).Consistent := by
  unfold Scheduler.Schedule
  by_cases hm : edge ∈ s.ready_
  · simpa [hm] using h
  · obtain ⟨hnd, hiff⟩ := h
    simp only [hm, if_false]
    constructor
    · show (s.prioritized_ ++ [edge]).Nodup
      rw [List.nodup_append]
      refine ⟨hnd, List.nodup_singleton _, ?_⟩
      intro a ha hb
      rw [List.mem_singleton] at hb
      subst hb
      exact hm ((hiff a).mp ha)
    · intro e
      show e ∈ s.prioritized_ ++ [edge] ↔ e ∈ insert edge s.ready_
      rw [List.mem_append, List.mem_singleton, Finset.mem_insert, hiff e]
      tauto

theorem Scheduler.NextUnit_of_nonempty (weight : EdgePtr → Int) {s : Scheduler}
    (h : s.Consistent) (hne : s.ready_ ≠ ∅) :
    ∃ edge, pqTop (EdgeWeightComparison weight) s.prioritized_ = some edge ∧
      s.NextUnit weight =
        some (some edge, { ready_ := s.ready_.erase edge,
                           prioritized_ := s.prioritized_.erase edge }) := by
  obtain ⟨x, hx⟩ := Finset.nonempty_iff_ne_empty.mpr hne
  have hq : s.prioritized_ ≠ [] := by
    intro hnil
    have := (h.2 x).mpr hx
    rw [hnil] at this
    exact List.not_mem_nil _ this
  cases ht : pqTop (EdgeWeightComparison weight) s.prioritized_ with
  | none => exact absurd (pqTop_eq_none.mp ht) hq
  | some edge =>
    refine ⟨edge, rfl, ?_⟩
    simp [Scheduler.NextUnit, hne, ht, pqPop]

theorem Scheduler.consistent_erase {s : Scheduler} (h : s.Consistent) (edge : EdgePtr) :
    Scheduler.Consistent
      { ready_ := s.ready_.erase edge, prioritized_ := s.prioritized_.erase edge } := by
  obtain ⟨hnd, hiff⟩ := h
  constructor
  · exact hnd.erase edge
  · intro e
    show e ∈ s.prioritized_.erase edge ↔ e ∈ s.ready_.erase edge
    rw [hnd.mem_erase_iff, Finset.mem_erase, hiff e]

theorem Scheduler.consistent_NextUnit {weight : EdgePtr → Int} {s s' : Scheduler}
    {r : Option EdgePtr} (h : s.Consistent) (hn : s.NextUnit weight = some (r, s')) :
    s'.Consistent := by
  by_cases hne : s.ready_ = ∅
  · simp [Scheduler.NextUnit, hne] at hn
    rw [← hn.2]
    exact h
  · obtain ⟨edge, _, he⟩ := Scheduler.NextUnit_of_nonempty weight h hne
    rw [he] at hn
    simp only [Option.some.injEq, Prod.mk.injEq] at hn
    rw [← hn.2]
    exact Scheduler.consistent_erase h edge

theorem Scheduler.Reachable.consistent {weight : EdgePtr → Int} {s : Scheduler}
    (h : Scheduler.Reachable weight s) : s.Consistent := by
  induction h with
  | new => exact Scheduler.consistent_new
  | Schedule edge _ ih => exact Scheduler.consistent_Schedule ih edge
  | NextUnit _ hn ih => exact Scheduler.consistent_NextUnit ih hn

/-! ## Claims about the scheduler -/

/-- C1. In every scheduler state reachable from the fresh scheduler whose ready set is
not empty, `NextUnit` returns an edge of the ready set whose weight is at least the
weight of every ready edge; the edge is removed from the ready set and from the
priority queue and nothing else is, so `UnitsWaiting` drops by exactly one and every
other ready edge stays ready and queued. -/
theorem NextUnit_dispatches_heaviest (weight : EdgePtr → Int) (s : Scheduler)
    (hr : Scheduler.Reachable weight s) (hne : s.ready_ ≠ ∅) :
    ∃ edge s', s.NextUnit weight = some (some edge, s') ∧
      edge ∈ s.ready_ ∧
      (∀ x ∈ s.ready_, weight x ≤ weight edge) ∧
      edge ∉ s'.ready_ ∧ edge ∉ s'.prioritized_ ∧
      (∀ x, x ≠ edge → (x ∈ s'.ready_ ↔ x ∈ s.ready_)) ∧
      (∀ x, x ≠ edge → List.count x s'.prioritized_ = List.count x s.prioritized_) ∧
      s'.UnitsWaiting + 1 = s.UnitsWaiting ∧
      s'.prioritized_.length + 1 = s.prioritized_.length := by
  have hc := hr.consistent
  obtain ⟨edge, htop, he⟩ := Scheduler.NextUnit_of_nonempty weight hc hne
  have hmemq : edge ∈ s.prioritized_ := pqTop_mem htop
  have hmem : edge ∈ s.ready_ := (hc.2 edge).mp hmemq
  refine ⟨edge, _, he, hmem, ?_, ?_, ?_, ?_, ?_, ?_, ?_⟩
  · intro x hx
    exact pqTop_weight_max htop x ((hc.2 x).mpr hx)
  · simp
  · show edge ∉ s.prioritized_.erase edge
    rw [hc.1.mem_erase_iff]
    simp
  · intro x hx
    show x ∈ s.ready_.erase edge ↔ x ∈ s.ready_
    rw [Finset.mem_erase]
    simp [hx]
  · intro x hx
    show List.count x (s.prioritized_.erase edge) = List.count x s.prioritized_
    rw [List.count_erase_of_ne hx]
  · show (s.ready_.erase edge).card + 1 = s.ready_.card
    rw [Finset.card_erase_of_mem hmem]
    have : 0 < s.ready_.card := Finset.card_pos.mpr ⟨edge, hmem⟩
    omega
  · show (s.prioritized_.erase edge).length + 1 = s.prioritized_.length
    rw [List.length_erase_of_mem hmemq]
    have : 0 < s.prioritized_.length := List.length_pos_of_mem hmemq
    omega

theorem NextUnit_dispatches_heaviest_witness :
    Scheduler.Reachable weights5153 (Scheduler.new.ScheduleAll [1, 2, 3]) ∧
    (Scheduler.new.ScheduleAll [1, 2, 3]).ready_ ≠ ∅ ∧
    ∃ edge s', (Scheduler.new.ScheduleAll [1, 2, 3]).NextUnit weights5153 = some (some edge, s') ∧
      edge ∈ (Scheduler.new.ScheduleAll [1, 2, 3]).ready_ ∧
      (∀ x ∈ (Scheduler.new.ScheduleAll [1, 2, 3]).ready_, weights5153 x ≤ weights5153 edge) ∧
      edge ∉ s'.ready_ ∧ edge ∉ s'.prioritized_ ∧
      (∀ x, x ≠ edge → (x ∈ s'.ready_ ↔ x ∈ (Scheduler.new.ScheduleAll [1, 2, 3]).ready_)) ∧
      (∀ x, x ≠ edge → List.count x s'.prioritized_ =
        List.count x (Scheduler.new.ScheduleAll [1, 2, 3]).prioritized_) ∧
      s'.UnitsWaiting + 1 = (Scheduler.new.ScheduleAll [1, 2, 3]).UnitsWaiting ∧
      s'.prioritized_.length + 1 = (Scheduler.new.ScheduleAll [1, 2, 3]).prioritized_.length :=
  have hr : Scheduler.Reachable weights5153 (Scheduler.new.ScheduleAll [1, 2, 3]) :=
    .Schedule 3 (.Schedule 2 (.Schedule 1 .new))
  have hne : (Scheduler.new.ScheduleAll [1, 2, 3]).ready_ ≠ ∅ := by decide
  ⟨hr, hne, NextUnit_dispatches_heaviest weights5153 _ hr hne⟩

/-! ## Draining the scheduler -/

theorem Scheduler.ScheduleAll_fresh (s : Scheduler) (edges : List EdgePtr)
    (hnd : edges.Nodup) (hdis : ∀ e ∈ edges, e ∉ s.ready_) :
    (s.ScheduleAll edges).prioritized_ = s.prioritized_ ++ edges ∧
    (s.ScheduleAll edges).ready_ = s.ready_ ∪ edges.toFinset := by
  induction edges generalizing s with
  | nil => simp [Scheduler.ScheduleAll]
  | cons x xs ih =>
    have hx : x ∉ s.ready_ := hdis x (List.mem_cons_self _ _)
    have hxs : x ∉ xs := (List.nodup_cons.mp hnd).1
    have hstep : s.Schedule x =
        { ready_ := insert x s.ready_, prioritized_ := s.prioritized_ ++ [x] } := by
      simp [Scheduler.Schedule, hx]
    have hdis' : ∀ e ∈ xs, e ∉ (s.Schedule x).ready_ := by
      intro e he
      rw [hstep]
      show e ∉ insert x s.ready_
      rw [Finset.mem_insert]
      rintro (rfl | h)
      · exact hxs he
      · exact hdis e (List.mem_cons_of_mem _ he) h
    obtain ⟨h1, h2⟩ := ih (s.Schedule x) (List.nodup_cons.mp hnd).2 hdis'
    have hfold : s.ScheduleAll (x :: xs) = (s.Schedule x).ScheduleAll xs := rfl
    rw [hfold, h1, h2, hstep]
    constructor
    · simp
    · ext e
      simp only [Finset.mem_union, Finset.mem_insert, List.mem_toFinset, List.mem_cons]
      tauto

theorem Scheduler.ScheduleAll_reachable (weight : EdgePtr → Int) (s : Scheduler)
    (edges : List EdgePtr) (h : Scheduler.Reachable weight s) :
    Scheduler.Reachable weight (s.ScheduleAll edges) := by
  induction edges generalizing s with
  | nil => exact h
  | cons x xs ih => exact ih (s.Schedule x) (.Schedule x h)

theorem Scheduler.drain_sorted_perm (weight : EdgePtr → Int) (fuel : Nat) :
    ∀ s : Scheduler, s.Consistent → s.ready_.card < fuel →
      ∃ out, Scheduler.drain weight fuel s = some out ∧ out.Perm s.prioritized_ ∧
        (out.map weight).Sorted (fun a b => a ≥ b) := by
  induction fuel with
  | zero => intro s _ h; omega
  | succ fuel ih =>
    intro s hc hfuel
    by_cases hne : s.ready_ = ∅
    · have hq : s.prioritized_ = [] := by
        apply List.eq_nil_iff_forall_not_mem.mpr
        intro e he
        have := (hc.2 e).mp he
        rw [hne] at this
        exact Finset.not_mem_empty _ this
      refine ⟨[], ?_, ?_, ?_⟩
      · simp [Scheduler.drain, Scheduler.NextUnit, hne]
      · rw [hq]
      · simp
    · obtain ⟨edge, htop, he⟩ := Scheduler.NextUnit_of_nonempty weight hc hne
      have hmemq : edge ∈ s.prioritized_ := pqTop_mem htop
      have hmem : edge ∈ s.ready_ := (hc.2 edge).mp hmemq
      have hcard : (s.ready_.erase edge).card < fuel := by
        rw [Finset.card_erase_of_mem hmem]
        have : 0 < s.ready_.card := Finset.card_pos.mpr ⟨edge, hmem⟩
        omega
      obtain ⟨out, hout, hperm, hsorted⟩ :=
        ih { ready_ := s.ready_.erase edge, prioritized_ := s.prioritized_.erase edge }
          (Scheduler.consistent_erase hc edge) hcard
      refine ⟨edge :: out, ?_, ?_, ?_⟩
      · simp [Scheduler.drain, he, hout]
      · exact (List.Perm.cons edge hperm).trans (List.perm_cons_erase hmemq).symm
      · rw [List.map_cons, List.sorted_cons]
        refine ⟨?_, hsorted⟩
        intro b hb
        obtain ⟨x, hx, rfl⟩ := List.mem_map.mp hb
        have hx' : x ∈ s.prioritized_.erase edge := hperm.mem_iff.mp hx
        exact pqTop_weight_max htop x (List.mem_of_mem_erase hx')

/-- C2. When the distinct edges of a list are scheduled, in the order of the list, into
a fresh scheduler and `NextUnit` is then called until it returns `NULL` (any number of
calls above the number of edges suffices), the calls return every scheduled edge exactly
once, and the weights of the returned edges never increase along the way.  In
particular, if the weights of the scheduled edges are `5, 1, 5, 3` in scheduling order,
the weights in dispatch order are `5, 5, 3, 1`. -/
theorem drain_dispatches_by_weight (weight : EdgePtr → Int) (edges : List EdgePtr)
    (hnd : edges.Nodup) (fuel : Nat) (hfuel : edges.length < fuel) :
    ∃ out, Scheduler.drain weight fuel (Scheduler.new.ScheduleAll edges) = some out ∧
      out.Perm edges ∧ out.Nodup ∧
      (out.map weight).Sorted (fun a b => a ≥ b) ∧
      (edges.map weight = [5, 1, 5, 3] → out.map weight = [5, 5, 3, 1]) := by
  obtain ⟨hq, hr⟩ := Scheduler.ScheduleAll_fresh Scheduler.new edges hnd
    (by intro e _; simp [Scheduler.new])
  have hq' : (Scheduler.new.ScheduleAll edges).prioritized_ = edges := by
    rw [hq]; simp [Scheduler.new]
  have hreach : Scheduler.Reachable weight (Scheduler.new.ScheduleAll edges) :=
    Scheduler.ScheduleAll_reachable weight _ edges .new
  have hcard : (Scheduler.new.ScheduleAll edges).ready_.card < fuel := by
    rw [hr]
    simp only [Scheduler.new, Finset.empty_union]
    rw [List.toFinset_card_of_nodup hnd]
    exact hfuel
  obtain ⟨out, hout, hperm, hsorted⟩ :=
    Scheduler.drain_sorted_perm weight fuel _ hreach.consistent hcard
  rw [hq'] at hperm
  refine ⟨out, hout, hperm, hperm.nodup_iff.mpr hnd, hsorted, ?_⟩
  intro hw
  have hp : (out.map weight).Perm [5, 5, 3, 1] := by
    have h1 : (out.map weight).Perm [5, 1, 5, 3] := hw ▸ hperm.map weight
    have h2 : ([5, 1, 5, 3] : List Int).Perm [5, 5, 3, 1] := by decide
    exact h1.trans h2
  have hs : ([5, 5, 3, 1] : List Int).Sorted (fun a b => a ≥ b) := by decide
  exact List.eq_of_perm_of_sorted hp hsorted hs

theorem drain_dispatches_by_weight_witness :
    [0, 1, 2, 3].Nodup ∧ [0, 1, 2, 3].length < 5 ∧
    ∃ out, Scheduler.drain weights5153 5 (Scheduler.new.ScheduleAll [0, 1, 2, 3]) = some out ∧
      out.Perm [0, 1, 2, 3] ∧ out.Nodup ∧
      (out.map weights5153).Sorted (fun a b => a ≥ b) ∧
      out.map weights5153 = [5, 5, 3, 1] :=
  match drain_dispatches_by_weight weights5153 [0, 1, 2, 3] (by decide) 5 (by decide) with
  | ⟨out, h1, h2, h3, h4, h5⟩ =>
    ⟨by decide, by decide, out, h1, h2, h3, h4, h5 (by decide)⟩

theorem Scheduler.Schedule_Schedule (s : Scheduler) (edge : EdgePtr) :
    (s.Schedule edge).Schedule edge = s.Schedule edge := by
  by_cases hm : edge ∈ s.ready_
  · simp [Scheduler.Schedule, hm]
  · have hstep : s.Schedule edge =
        { ready_ := insert edge s.ready_, prioritized_ := s.prioritized_ ++ [edge] } := by
      simp [Scheduler.Schedule, hm]
    rw [hstep]
    simp [Scheduler.Schedule]

/-- C3. For every scheduler state and edge `e`, `n + 1` calls of `Schedule(e)` in a row
leave the scheduler in the state one call leaves it in.  After them `e` is in the ready
set; `UnitsWaiting` is one more than before when `e` was not ready, and nothing at all
has changed when `e` was ready already.  When the state before the calls had the queue
and the ready set in agreement, the queue holds `e` exactly once afterwards. -/
theorem Schedule_idempotent (s : Scheduler) (e : EdgePtr) (n : Nat) :
    (fun t : Scheduler => t.Schedule e)^[n + 1] s = s.Schedule e ∧
    e ∈ (s.Schedule e).ready_ ∧
    (e ∉ s.ready_ → (s.Schedule e).UnitsWaiting = s.UnitsWaiting + 1) ∧
    (e ∈ s.ready_ → s.Schedule e = s ∧ (s.Schedule e).UnitsWaiting = s.UnitsWaiting) ∧
    (s.Consistent → List.count e (s.Schedule e).prioritized_ = 1) := by
  refine ⟨?_, ?_, ?_, ?_, ?_⟩
  · induction n with
    | zero => rfl
    | succ n ih =>
      rw [Function.iterate_succ_apply', ih]
      exact Scheduler.Schedule_Schedule s e
  · by_cases hm : e ∈ s.ready_
    · simp [Scheduler.Schedule, hm]
    · simp [Scheduler.Schedule, hm]
  · intro hm
    simp [Scheduler.Schedule, hm, Scheduler.UnitsWaiting, Finset.card_insert_of_not_mem hm]
  · intro hm
    simp [Scheduler.Schedule, hm]
  · intro hc
    have hc' := Scheduler.consistent_Schedule hc e
    have hmem : e ∈ (s.Schedule e).prioritized_ := by
      rw [hc'.2 e]
      by_cases hm : e ∈ s.ready_
      · simp [Scheduler.Schedule, hm]
      · simp [Scheduler.Schedule, hm]
    exact List.count_eq_one_of_mem hc'.1 hmem

theorem Schedule_idempotent_witness :
    (fun t : Scheduler => t.Schedule 2)^[3] (Scheduler.new.ScheduleAll [0, 1]) =
      (Scheduler.new.ScheduleAll [0, 1]).Schedule 2 ∧
    (2 ∈ ((Scheduler.new.ScheduleAll [0, 1]).Schedule 2).ready_) ∧
    ((Scheduler.new.ScheduleAll [0, 1]).Schedule 2).UnitsWaiting =
      (Scheduler.new.ScheduleAll [0, 1]).UnitsWaiting + 1 ∧
    List.count 2 ((Scheduler.new.ScheduleAll [0, 1]).Schedule 2).prioritized_ = 1 :=
  have h := Schedule_idempotent (Scheduler.new.ScheduleAll [0, 1]) 2 2
  ⟨h.1, h.2.1, h.2.2.1 (by decide),
    h.2.2.2.2 (Scheduler.ScheduleAll_reachable weights5153 _ [0, 1] .new).consistent⟩

/-! ## Claims about pools -/

theorem wrapInt_of_inRange (x : Int) (h : InIntRange x) : wrapInt x = x := by
  obtain ⟨h1, h2⟩ := h
  unfold wrapInt
  omega

theorem wrapInt_sub_cancel (a b : Int) (h : InIntRange a) :
    wrapInt (wrapInt (a + b) - b) = a := by
  obtain ⟨h1, h2⟩ := h
  unfold wrapInt
  omega

theorem Pool.usageAfter_take (weight : EdgePtr → Int) :
    ∀ (l : List EdgePtr) (cu : Int),
      (∀ j ≤ l.length, InIntRange (cu + ((l.take j).map weight).sum)) →
      ∀ j ≤ l.length,
        Pool.usageAfter weight cu (l.take j) = cu + ((l.take j).map weight).sum := by
  intro l
  induction l with
  | nil =>
    intro cu _ j _
    simp [Pool.usageAfter]
  | cons e l ih =>
    intro cu hr j hj
    cases j with
    | zero => simp [Pool.usageAfter]
    | succ i =>
      have h1 : InIntRange (cu + weight e) := by
        have := hr 1 (by simp)
        simpa using this
      have hr' : ∀ j ≤ l.length, InIntRange (cu + weight e + ((l.take j).map weight).sum) := by
        intro j hj'
        have := hr (j + 1) (by simpa using hj')
        simp only [List.take_succ_cons, List.map_cons, List.sum_cons] at this
        rw [add_assoc]
        exact this
      have hi : i ≤ l.length := by simpa using hj
      have := ih (cu + weight e) hr' i hi
      simp only [List.take_succ_cons, List.map_cons, List.sum_cons]
      show Pool.usageAfter weight (wrapInt (cu + weight e)) (l.take i) = _
      rw [wrapInt_of_inRange _ h1, this]
      ring

theorem Pool.usageAfter_released (weight : EdgePtr → Int) (cu : Int)
    (delayed released rest : List EdgePtr) (hsplit : delayed = released ++ rest)
    (hrange : ∀ j ≤ delayed.length, InIntRange (cu + ((delayed.take j).map weight).sum)) :
    Pool.usageAfter weight cu released = cu + (released.map weight).sum ∧
    ∀ j ≤ released.length,
      Pool.usageAfter weight cu (released.take j) = cu + ((delayed.take j).map weight).sum := by
  have hlen : released.length ≤ delayed.length := by rw [hsplit]; simp
  have htake : ∀ j ≤ released.length, released.take j = delayed.take j := by
    intro j hj
    rw [hsplit, List.take_append_of_le_length hj]
  have hall : ∀ j ≤ released.length,
      Pool.usageAfter weight cu (released.take j) =
        cu + ((delayed.take j).map weight).sum := by
    intro j hj
    rw [htake j hj]
    exact Pool.usageAfter_take weight delayed cu hrange j (le_trans hj hlen)
  refine ⟨?_, hall⟩
  have := hall released.length le_rfl
  rw [← htake released.length le_rfl, List.take_length] at this
  exact this

theorem Pool.retrieveLoop_spec (weight : EdgePtr → Int) :
    ∀ (delayed : List EdgePtr) (p : Pool) (ready_queue : Finset EdgePtr) (log : List EdgePtr),
      p.depth_ ≠ 0 → p.delayed_ = delayed →
      ∃ released rest, delayed = released ++ rest ∧
        Pool.retrieveLoop weight delayed p ready_queue log =
          ({ p with current_use_ := Pool.usageAfter weight p.current_use_ released,
                    delayed_ := rest },
           ready_queue ∪ released.toFinset, log ++ released) ∧
        (∀ j, 1 ≤ j → j ≤ released.length →
          Pool.usageAfter weight p.current_use_ (released.take j) ≤ p.depth_) ∧
        (rest = [] ∨ ∃ e rest', rest = e :: rest' ∧
          wrapInt (Pool.usageAfter weight p.current_use_ released + weight e) > p.depth_) := by
  intro delayed
  induction delayed with
  | nil =>
    intro p rq log _ hd
    refine ⟨[], [], rfl, ?_, ?_, Or.inl rfl⟩
    · cases p
      simp only at hd
      simp [Pool.retrieveLoop, Pool.usageAfter, hd]
    · intro j h1 h2
      simp at h2
      omega
  | cons e ds ih =>
    intro p rq log hdepth hd
    obtain ⟨name, depth, cu, dl⟩ := p
    simp only at hdepth hd
    subst hd
    by_cases hover : wrapInt (cu + weight e) > depth
    · refine ⟨[], e :: ds, rfl, ?_, ?_, Or.inr ⟨e, ds, rfl, ?_⟩⟩
      · simp [Pool.retrieveLoop, Pool.usageAfter, hover]
      · intro j h1 h2
        simp at h2
        omega
      · simpa [Pool.usageAfter] using hover
    · obtain ⟨released, rest, hsplit, hloop, hpre, hmax⟩ :=
        ih { name_ := name, depth_ := depth, current_use_ := wrapInt (cu + weight e),
             delayed_ := ds }
          (insert e rq) (log ++ [e]) hdepth rfl
      refine ⟨e :: released, rest, by rw [hsplit]; rfl, ?_, ?_, ?_⟩
      · simp only [Pool.retrieveLoop, hover, if_false, Pool.EdgeScheduled, hdepth, ne_eq,
          not_false_eq_true, if_true]
        rw [hloop]
        simp only [List.toFinset_cons, List.append_assoc, List.singleton_append,
          Prod.mk.injEq, Pool.mk.injEq, true_and, and_true]
        refine ⟨rfl, ?_⟩
        ext x
        simp only [Finset.mem_union, Finset.mem_insert, List.mem_toFinset]
        tauto
      · intro j h1 h2
        obtain ⟨i, rfl⟩ : ∃ i, j = i + 1 := ⟨j - 1, by omega⟩
        simp only [List.take_succ_cons]
        show Pool.usageAfter weight (wrapInt (cu + weight e)) (released.take i) ≤ depth
        by_cases hi : i = 0
        · subst hi
          simp only [List.take_zero, Pool.usageAfter, List.foldl_nil]
          omega
        · exact hpre i (by omega) (by simpa using h2)
      · rcases hmax with h | ⟨e', rest', h1, h2⟩
        · exact Or.inl h
        · exact Or.inr ⟨e', rest', h1, h2⟩

theorem Pool.foldl_EdgeScheduled (weight : EdgePtr → Int) (es : List EdgePtr) :
    ∀ p : Pool, p.depth_ ≠ 0 →
      es.foldl (fun q e => q.EdgeScheduled weight e) p =
        { p with current_use_ := Pool.usageAfter weight p.current_use_ es } := by
  induction es with
  | nil => intro p _; simp [Pool.usageAfter]
  | cons e es ih =>
    intro p hd
    obtain ⟨name, depth, cu, dl⟩ := p
    simp only at hd
    have hstep : Pool.EdgeScheduled weight
        { name_ := name, depth_ := depth, current_use_ := cu, delayed_ := dl } e =
        { name_ := name, depth_ := depth, current_use_ := wrapInt (cu + weight e),
          delayed_ := dl } := by
      simp [Pool.EdgeScheduled, hd]
    rw [List.foldl_cons, hstep, ih _ hd]
    rfl

theorem Pool.retrieveLoopScheduler_pool (weight : EdgePtr → Int) :
    ∀ (delayed : List EdgePtr) (p : Pool) (ready_queue : Finset EdgePtr)
      (scheduler : Scheduler) (log : List EdgePtr),
      (Pool.retrieveLoopScheduler weight delayed p scheduler log).1 =
        (Pool.retrieveLoop weight delayed p ready_queue log).1 ∧
      (Pool.retrieveLoopScheduler weight delayed p scheduler log).2.2 =
        (Pool.retrieveLoop weight delayed p ready_queue log).2.2 := by
  intro delayed
  induction delayed with
  | nil => intro p rq sch log; exact ⟨rfl, rfl⟩
  | cons e ds ih =>
    intro p rq sch log
    by_cases hover : wrapInt (p.current_use_ + weight e) > p.depth_
    · simp [Pool.retrieveLoopScheduler, Pool.retrieveLoop, hover]
    · simp only [Pool.retrieveLoopScheduler, Pool.retrieveLoop, hover, if_false]
      exact ih _ _ _ _

theorem Pool.Reachable.delayed_depth {weight : EdgePtr → Int} {p : Pool}
    (h : Pool.Reachable weight p) : p.delayed_ ≠ [] → p.depth_ ≠ 0 := by
  have loop : ∀ (q : Pool) (rq : Finset EdgePtr), (q.delayed_ ≠ [] → q.depth_ ≠ 0) →
      (q.RetrieveReadyEdges weight rq).1.delayed_ ≠ [] →
      (q.RetrieveReadyEdges weight rq).1.depth_ ≠ 0 := by
    intro q rq hq hne
    by_cases hnil : q.delayed_ = []
    · exfalso
      apply hne
      simp [Pool.RetrieveReadyEdges, hnil, Pool.retrieveLoop]
    · obtain ⟨released, rest, _, hloop, _⟩ :=
        Pool.retrieveLoop_spec weight q.delayed_ q rq [] (hq hnil) rfl
      unfold Pool.RetrieveReadyEdges
      rw [hloop]
      exact hq hnil
  induction h with
  | new name depth => intro hne; exact absurd rfl hne
  | @EdgeScheduled q edge _ ih =>
    intro hne
    by_cases hd : q.depth_ = 0
    · simp only [Pool.EdgeScheduled, hd, ne_eq, not_true_eq_false, if_false] at hne
      exact absurd hd (ih hne)
    · simp [Pool.EdgeScheduled, hd]
  | @EdgeFinished q edge _ ih =>
    intro hne
    by_cases hd : q.depth_ = 0
    · simp only [Pool.EdgeFinished, hd, ne_eq, not_true_eq_false, if_false] at hne
      exact absurd hd (ih hne)
    · simp [Pool.EdgeFinished, hd]
  | @DelayEdge q q' edge _ hde _ =>
    intro _
    by_cases hd : q.depth_ = 0
    · simp [Pool.DelayEdge, hd] at hde
    · simp only [Pool.DelayEdge, ne_eq, hd, not_false_eq_true, if_true,
        Option.some.injEq] at hde
      rw [← hde]
      exact hd
  | @RetrieveReadyEdges q rq _ ih => exact loop q rq ih
  | @RetrieveReadyEdgesScheduler q sch _ ih =>
    have heq : (q.RetrieveReadyEdgesScheduler weight sch).1 =
        (q.RetrieveReadyEdges weight ∅).1 :=
      (Pool.retrieveLoopScheduler_pool weight q.delayed_ q ∅ sch []).1
    rw [heq]
    exact loop q ∅ ih

theorem Pool.RetrieveReadyEdges_poolFull :
    poolFull.RetrieveReadyEdges weights331 ∅ =
      ({ poolFull with current_use_ := -2147483647, delayed_ := [] }, {0}, [0]) := by
  decide

/-- C5. For every pool with `depth_ ≠ 0` and `current_use_ ≤ depth_`,
`RetrieveReadyEdges` returns (the model is a total function), leaves the depth alone and
leaves `current_use_ ≤ depth_`; the usage after each single release, which is what the
calls of `EdgeScheduled` for the edges released so far make of the pool, is within the
depth as well, and the final usage is the one reached after the last release.  For depth
4, usage 0 and delayed edges of weight 3, 3, 1 the first call releases the first edge
only; after `EdgeFinished` for it the next call releases the second and then the third
edge and ends with usage 4 and an empty queue. -/
theorem RetrieveReadyEdges_within_depth (weight : EdgePtr → Int) (p : Pool)
    (ready_queue : Finset EdgePtr) (hd : p.depth_ ≠ 0) (hu : p.current_use_ ≤ p.depth_) :
    (∃ p' ready' released, p.RetrieveReadyEdges weight ready_queue = (p', ready', released) ∧
      p'.depth_ = p.depth_ ∧ p'.current_use_ ≤ p'.depth_ ∧
      (∀ j, j ≤ released.length →
        ((released.take j).foldl (fun q e => q.EdgeScheduled weight e) p).current_use_
          ≤ p.depth_) ∧
      p'.current_use_ =
        (released.foldl (fun q e => q.EdgeScheduled weight e) p).current_use_) ∧
    pool4.RetrieveReadyEdges weights331 ∅ =
      ({ pool4 with current_use_ := 3, delayed_ := [1, 2] }, {0}, [0]) ∧
    (Pool.EdgeFinished weights331 { pool4 with current_use_ := 3, delayed_ := [1, 2] } 0
      ).RetrieveReadyEdges weights331 ∅ =
      ({ pool4 with current_use_ := 4, delayed_ := [] }, {1, 2}, [1, 2]) := by
  refine ⟨?_, by decide, by decide⟩
  obtain ⟨released, rest, hsplit, hloop, hpre, _⟩ :=
    Pool.retrieveLoop_spec weight p.delayed_ p ready_queue [] hd rfl
  rw [List.nil_append] at hloop
  have hfold : ∀ j, ((released.take j).foldl (fun q e => q.EdgeScheduled weight e) p).current_use_
      = Pool.usageAfter weight p.current_use_ (released.take j) := by
    intro j
    rw [Pool.foldl_EdgeScheduled weight _ p hd]
  have hbound : ∀ j, j ≤ released.length →
      Pool.usageAfter weight p.current_use_ (released.take j) ≤ p.depth_ := by
    intro j hj
    by_cases h0 : j = 0
    · subst h0
      simpa [Pool.usageAfter] using hu
    · exact hpre j (by omega) hj
  refine ⟨_, _, _, hloop, rfl, ?_, ?_, ?_⟩
  · have := hbound released.length le_rfl
    simpa using this
  · intro j hj
    rw [hfold j]
    exact hbound j hj
  · rw [Pool.foldl_EdgeScheduled weight _ p hd]

theorem RetrieveReadyEdges_within_depth_witness :
    pool4.depth_ ≠ 0 ∧ pool4.current_use_ ≤ pool4.depth_ ∧
    ∃ p' ready' released, pool4.RetrieveReadyEdges weights331 ∅ = (p', ready', released) ∧
      p'.depth_ = pool4.depth_ ∧ p'.current_use_ ≤ p'.depth_ ∧
      (∀ j, j ≤ released.length →
        ((released.take j).foldl (fun q e => q.EdgeScheduled weights331 e) pool4).current_use_
          ≤ pool4.depth_) ∧
      p'.current_use_ =
        (released.foldl (fun q e => q.EdgeScheduled weights331 e) pool4).current_use_ :=
  ⟨by decide, by decide,
    (RetrieveReadyEdges_within_depth weights331 pool4 ∅ (by decide) (by decide)).1⟩

/-- C6. For a pool with `depth_ ≠ 0`, `EdgeScheduled(e)` adds the weight of `e` to
`current_use_` and `EdgeFinished(e)` subtracts it, both in `int` arithmetic; the new
value is the mathematical sum or difference whenever that is a value of `int`.
`EdgeFinished(e)` after `EdgeScheduled(e)` gives back the pool as it was, for every pool
whose `current_use_` is a value of `int`, also when the sum in between wraps around.
For a pool with `depth_ = 0` both leave the whole pool as it is.  In either case name,
depth and delayed queue are left alone. -/
theorem EdgeScheduled_EdgeFinished (weight : EdgePtr → Int) (p : Pool) (e : EdgePtr) :
    (p.depth_ ≠ 0 →
      (p.EdgeScheduled weight e).current_use_ = wrapInt (p.current_use_ + weight e) ∧
      (p.EdgeFinished weight e).current_use_ = wrapInt (p.current_use_ - weight e) ∧
      (InIntRange (p.current_use_ + weight e) →
        (p.EdgeScheduled weight e).current_use_ = p.current_use_ + weight e) ∧
      (InIntRange (p.current_use_ - weight e) →
        (p.EdgeFinished weight e).current_use_ = p.current_use_ - weight e) ∧
      (InIntRange p.current_use_ →
        (p.EdgeScheduled weight e).EdgeFinished weight e = p)) ∧
    (p.depth_ = 0 → p.EdgeScheduled weight e = p ∧ p.EdgeFinished weight e = p) ∧
    (p.EdgeScheduled weight e).delayed_ = p.delayed_ ∧
    (p.EdgeFinished weight e).delayed_ = p.delayed_ ∧
    (p.EdgeScheduled weight e).depth_ = p.depth_ ∧
    (p.EdgeFinished weight e).depth_ = p.depth_ ∧
    (p.EdgeScheduled weight e).name_ = p.name_ ∧
    (p.EdgeFinished weight e).name_ = p.name_ := by
  obtain ⟨name, depth, cu, dl⟩ := p
  by_cases hd : depth = 0
  · simp [Pool.EdgeScheduled, Pool.EdgeFinished, hd]
  · simp only [Pool.EdgeScheduled, Pool.EdgeFinished, hd, ne_eq, not_false_eq_true, if_true,
      true_and, and_true, false_implies, forall_true_left, Pool.mk.injEq]
    refine ⟨fun h => wrapInt_of_inRange _ h, fun h => wrapInt_of_inRange _ h,
      fun h => wrapInt_sub_cancel cu (weight e) h⟩

theorem EdgeScheduled_EdgeFinished_witness :
    (pool4.EdgeScheduled weights331 1).current_use_ = pool4.current_use_ + weights331 1 ∧
    (pool4.EdgeFinished weights331 1).current_use_ = pool4.current_use_ - weights331 1 ∧
    (pool4.EdgeScheduled weights331 1).EdgeFinished weights331 1 = pool4 ∧
    (poolFull.EdgeScheduled weights331 0).current_use_ = -2147483647 ∧
    (poolFull.EdgeScheduled weights331 0).EdgeFinished weights331 0 = poolFull :=
  have h := (EdgeScheduled_EdgeFinished weights331 pool4 1).1 (by decide)
  have h' := (EdgeScheduled_EdgeFinished weights331 poolFull 0).1 (by decide)
  ⟨h.2.2.1 (by decide), h.2.2.2.1 (by decide), h.2.2.2.2 (by decide),
    h'.1.trans (by decide), h'.2.2.2.2 (by decide)⟩

/-! ## Facts about the registry -/

theorem mapFind_mapAssign_self {β : Type} (key : String) (value : β) (m : List (String × β)) :
    mapFind key (mapAssign key value m) = some value := by
  induction m with
  | nil => simp [mapAssign, mapFind]
  | cons kv m ih =>
    obtain ⟨k, v⟩ := kv
    by_cases h : k = key
    · simp [mapAssign, mapFind, h]
    · simp [mapAssign, mapFind, h, ih]

theorem mapFind_mapAssign_ne {β : Type} (key : String) (value : β) (m : List (String × β))
    (q : String) (hq : q ≠ key) :
    mapFind q (mapAssign key value m) = mapFind q m := by
  have hq' : ¬ key = q := fun h => hq h.symm
  induction m with
  | nil => simp [mapAssign, mapFind, hq']
  | cons kv m ih =>
    obtain ⟨k, v⟩ := kv
    by_cases h : k = key
    · subst h
      simp [mapAssign, mapFind, hq']
    · by_cases h' : k = q
      · subst h'
        simp [mapAssign, mapFind, h]
      · simp [mapAssign, mapFind, h, h', ih]

theorem State.GetNode_found {s : State} {path : String} {n : NodePtr}
    (h : s.LookupNode path = some n) : s.GetNode path = (s, n) := by
  simp [State.GetNode, h]

theorem State.GetNode_fresh {s : State} {path : String} (h : s.LookupNode path = none) :
    s.GetNode path =
      ({ s with nodes := s.nodes ++ [Node.new path],
                paths_ := mapAssign path s.nodes.length s.paths_ }, s.nodes.length) := by
  simp [State.GetNode, h]

theorem State.GetNode_LookupNode_self (s : State) (path : String) :
    (s.GetNode path).1.LookupNode path = some (s.GetNode path).2 := by
  cases h : s.LookupNode path with
  | some n => rw [State.GetNode_found h]; exact h
  | none =>
    rw [State.GetNode_fresh h]
    exact mapFind_mapAssign_self path _ _

theorem State.GetNode_LookupNode_ne (s : State) (path q : String) (hq : q ≠ path) :
    (s.GetNode path).1.LookupNode q = s.LookupNode q := by
  cases h : s.LookupNode path with
  | some n => rw [State.GetNode_found h]
  | none =>
    rw [State.GetNode_fresh h]
    exact mapFind_mapAssign_ne path _ _ q hq

theorem State.GetNode_twice (s : State) (path : String) :
    (s.GetNode path).1.GetNode path = s.GetNode path := by
  have h := State.GetNode_LookupNode_self s path
  rw [State.GetNode_found h]

theorem State.GetNode_nodes_mono (s : State) (path : String) (n : NodePtr) (node : Node)
    (h : s.nodes[n]? = some node) : (s.GetNode path).1.nodes[n]? = some node := by
  cases hl : s.LookupNode path with
  | some m => rw [State.GetNode_found hl]; exact h
  | none =>
    rw [State.GetNode_fresh hl]
    show (s.nodes ++ [Node.new path])[n]? = some node
    have hlt : n < s.nodes.length := by
      rcases Nat.lt_or_ge n s.nodes.length with hlt | hge
      · exact hlt
      · rw [List.getElem?_eq_none hge] at h
        cases h
    rw [List.getElem?_append_left hlt]
    exact h

theorem State.GetNode_frame (s : State) (path : String) :
    (s.GetNode path).1.edges_ = s.edges_ ∧ (s.GetNode path).1.defaults_ = s.defaults_ ∧
    (s.GetNode path).1.rules_ = s.rules_ ∧ (s.GetNode path).1.pools_ = s.pools_ ∧
    (s.GetNode path).1.warnings = s.warnings := by
  cases hl : s.LookupNode path with
  | some m => rw [State.GetNode_found hl]; simp
  | none => rw [State.GetNode_fresh hl]; simp

theorem State.GetNode_PathsOK {s : State} (h : s.PathsOK) (path : String) :
    (s.GetNode path).1.PathsOK := by
  cases hl : s.LookupNode path with
  | some m => rw [State.GetNode_found hl]; exact h
  | none =>
    intro k n hk
    by_cases hkp : k = path
    · subst hkp
      rw [State.GetNode_LookupNode_self] at hk
      rw [State.GetNode_fresh hl] at hk ⊢
      simp only [Option.some.injEq] at hk
      subst hk
      refine ⟨Node.new k, ?_, rfl⟩
      show (s.nodes ++ [Node.new k])[s.nodes.length]? = some (Node.new k)
      exact List.getElem?_concat_length _ _
    · rw [State.GetNode_LookupNode_ne s path k hkp] at hk
      obtain ⟨node, hn, hp⟩ := h k n hk
      exact ⟨node, State.GetNode_nodes_mono s path n node hn, hp⟩

theorem State.GetNode_node_path {s : State} (h : s.PathsOK) (path : String) :
    ∃ node, (s.GetNode path).1.nodes[(s.GetNode path).2]? = some node ∧ node.path_ = path :=
  State.GetNode_PathsOK h path path _ (State.GetNode_LookupNode_self s path)

theorem NodesKeep.refl (nodes : List Node) : NodesKeep nodes nodes :=
  fun _ node h => ⟨node, h, rfl, fun _ he => he⟩

theorem NodesKeep.trans {a b c : List Node} (h1 : NodesKeep a b) (h2 : NodesKeep b c) :
    NodesKeep a c := by
  intro n node h
  obtain ⟨node', hn', hp', ho'⟩ := h1 n node h
  obtain ⟨node'', hn'', hp'', ho''⟩ := h2 n node' hn'
  exact ⟨node'', hn'', hp''.trans hp', fun e he => ho'' e (ho' e he)⟩

theorem NodesKeep.modify (f : Node → Node) (i : Nat) (nodes : List Node)
    (hp : ∀ node, (f node).path_ = node.path_)
    (ho : ∀ node, ∀ e ∈ node.out_edges_, e ∈ (f node).out_edges_) :
    NodesKeep nodes (List.modify f i nodes) := by
  intro n node h
  rw [List.getElem?_modify, h]
  by_cases hin : i = n
  · exact ⟨f node, by simp [hin], hp node, ho node⟩
  · exact ⟨node, by simp [hin], rfl, fun _ he => he⟩

theorem NodesKeep.GetNode (s : State) (path : String) :
    NodesKeep s.nodes (s.GetNode path).1.nodes :=
  fun n node h => ⟨node, State.GetNode_nodes_mono s path n node h, rfl, fun _ he => he⟩

theorem NodesKeep.reset (kvs : List (String × NodePtr)) :
    ∀ nodes : List Node,
      NodesKeep nodes (kvs.foldl (fun nodes kv => List.modify Node.ResetState kv.2 nodes) nodes) := by
  induction kvs with
  | nil => intro nodes; exact NodesKeep.refl nodes
  | cons kv kvs ih =>
    intro nodes
    rw [List.foldl_cons]
    exact (NodesKeep.modify Node.ResetState kv.2 nodes (fun _ => rfl) (fun _ _ he => he)).trans
      (ih _)

theorem State.PathsOK_of {s s' : State} (hp : s'.paths_ = s.paths_)
    (hn : NodesKeep s.nodes s'.nodes) (h : s.PathsOK) : s'.PathsOK := by
  intro k n hk
  have hk' : s.LookupNode k = some n := by
    unfold State.LookupNode at hk ⊢
    rw [← hp]; exact hk
  obtain ⟨node, hnode, hpath⟩ := h k n hk'
  obtain ⟨node', hn', hp', _⟩ := hn n node hnode
  exact ⟨node', hn', hp'.trans hpath⟩

theorem State.InputsOK_of {s s' : State}
    (he : ∀ (i : Nat) (e' : Edge), s'.edges_[i]? = some e' →
      ∃ e : Edge, s.edges_[i]? = some e ∧ e'.inputs_ = e.inputs_)
    (hn : NodesKeep s.nodes s'.nodes) (h : s.InputsOK) : s'.InputsOK := by
  intro i e' hi n hmem
  obtain ⟨e, hes, hin⟩ := he i e' hi
  rw [hin] at hmem
  obtain ⟨node, hnode, hout⟩ := h i e hes n hmem
  obtain ⟨node', hn', _, ho'⟩ := hn n node hnode
  exact ⟨node', hn', ho' i hout⟩

theorem State.AddIn_fields (s : State) (edge : EdgePtr) (path : String) :
    (s.AddIn edge path).paths_ = (s.GetNode path).1.paths_ ∧
    (s.AddIn edge path).nodes =
      List.modify (fun n => n.AddOutEdge edge) (s.GetNode path).2 (s.GetNode path).1.nodes ∧
    (s.AddIn edge path).edges_ =
      List.modify (fun e => { e with inputs_ := e.inputs_ ++ [(s.GetNode path).2] }) edge
        s.edges_ ∧
    (s.AddIn edge path).defaults_ = s.defaults_ ∧
    (s.AddIn edge path).warnings = s.warnings ∧
    (s.AddIn edge path).rules_ = s.rules_ ∧ (s.AddIn edge path).pools_ = s.pools_ := by
  obtain ⟨h1, h2, h3, h4, h5⟩ := State.GetNode_frame s path
  refine ⟨rfl, rfl, ?_, ?_, ?_, ?_, ?_⟩
  · show List.modify _ edge (s.GetNode path).1.edges_ = _
    rw [h1]
    rfl
  · exact h2
  · exact h5
  · exact h3
  · exact h4

theorem State.AddOut_fields (s : State) (edge : EdgePtr) (path : String) :
    (s.AddOut edge path).paths_ = (s.GetNode path).1.paths_ ∧
    (s.AddOut edge path).nodes =
      List.modify (fun n => n.set_in_edge edge) (s.GetNode path).2 (s.GetNode path).1.nodes ∧
    (s.AddOut edge path).edges_ =
      List.modify (fun e => { e with outputs_ := e.outputs_ ++ [(s.GetNode path).2] }) edge
        s.edges_ ∧
    (s.AddOut edge path).defaults_ = s.defaults_ ∧
    (s.AddOut edge path).rules_ = s.rules_ ∧ (s.AddOut edge path).pools_ = s.pools_ := by
  obtain ⟨h1, h2, h3, h4, _⟩ := State.GetNode_frame s path
  refine ⟨rfl, rfl, ?_, ?_, ?_, ?_⟩
  · show List.modify _ edge (s.GetNode path).1.edges_ = _
    rw [h1]
    rfl
  · exact h2
  · exact h3
  · exact h4

theorem State.AddIn_PathsOK {s : State} (h : s.PathsOK) (edge : EdgePtr) (path : String) :
    (s.AddIn edge path).PathsOK := by
  obtain ⟨hp, hn, _⟩ := State.AddIn_fields s edge path
  refine State.PathsOK_of hp ?_ (State.GetNode_PathsOK h path)
  rw [hn]
  exact NodesKeep.modify _ _ _ (fun _ => rfl) (fun node e he => by
    show e ∈ node.out_edges_ ++ [edge]
    exact List.mem_append_left _ he)

theorem State.AddOut_PathsOK {s : State} (h : s.PathsOK) (edge : EdgePtr) (path : String) :
    (s.AddOut edge path).PathsOK := by
  obtain ⟨hp, hn, _⟩ := State.AddOut_fields s edge path
  refine State.PathsOK_of hp ?_ (State.GetNode_PathsOK h path)
  rw [hn]
  exact NodesKeep.modify _ _ _ (fun _ => rfl) (fun _ _ he => he)

theorem State.GetNode_InputsOK {s : State} (h : s.InputsOK) (path : String) :
    (s.GetNode path).1.InputsOK := by
  refine State.InputsOK_of ?_ (NodesKeep.GetNode s path) h
  intro i e' hi
  rw [(State.GetNode_frame s path).1] at hi
  exact ⟨e', hi, rfl⟩

theorem State.AddOut_InputsOK {s : State} (h : s.InputsOK) (edge : EdgePtr) (path : String) :
    (s.AddOut edge path).InputsOK := by
  obtain ⟨_, hn, he, _⟩ := State.AddOut_fields s edge path
  have h1 := State.GetNode_InputsOK h path
  have hes := (State.GetNode_frame s path).1
  refine State.InputsOK_of ?_ ?_ h1
  · intro i e' hi
    rw [he, List.getElem?_modify] at hi
    rw [hes]
    cases hsi : s.edges_[i]? with
    | none => simp [hsi] at hi
    | some e =>
      refine ⟨e, rfl, ?_⟩
      simp only [hsi, Option.map_eq_map, Option.map_some', Option.some.injEq] at hi
      rw [← hi]
      by_cases hei : edge = i <;> simp [hei]
  · rw [hn]
    exact NodesKeep.modify _ _ _ (fun _ => rfl) (fun _ _ he => he)

theorem State.AddIn_InputsOK {s : State} (hp : s.PathsOK) (h : s.InputsOK) (edge : EdgePtr)
    (path : String) : (s.AddIn edge path).InputsOK := by
  obtain ⟨_, hn, he, _⟩ := State.AddIn_fields s edge path
  have h1 := State.GetNode_InputsOK h path
  have hes := (State.GetNode_frame s path).1
  obtain ⟨nd, hnd, _⟩ := State.GetNode_node_path hp path
  have hkeep : NodesKeep (s.GetNode path).1.nodes (s.AddIn edge path).nodes := by
    rw [hn]
    exact NodesKeep.modify _ _ _ (fun _ => rfl) (fun node e he => by
      show e ∈ node.out_edges_ ++ [edge]
      exact List.mem_append_left _ he)
  intro i e' hi n hmem
  rw [he, List.getElem?_modify] at hi
  cases hsi : s.edges_[i]? with
  | none => simp [hsi] at hi
  | some e =>
    simp only [hsi, Option.map_eq_map, Option.map_some', Option.some.injEq] at hi
    have hold : n ∈ e.inputs_ → ∃ node : Node, (s.AddIn edge path).nodes[n]? = some node ∧
        i ∈ node.out_edges_ := by
      intro hme
      obtain ⟨node, hnode, hout⟩ := h1 i e (by rw [hes]; exact hsi) n hme
      obtain ⟨node', hn', _, ho'⟩ := hkeep n node hnode
      exact ⟨node', hn', ho' i hout⟩
    by_cases hei : edge = i
    · simp only [hei, if_true] at hi
      rw [← hi] at hmem
      rcases List.mem_append.mp hmem with hme | hme
      · exact hold hme
      · rw [List.mem_singleton] at hme
        subst hme
        refine ⟨nd.AddOutEdge edge, ?_, ?_⟩
        · rw [hn, List.getElem?_modify_eq, hnd]
          rfl
        · show i ∈ nd.out_edges_ ++ [edge]
          rw [hei]
          simp
    · simp only [hei, if_false] at hi
      rw [← hi] at hmem
      exact hold hmem

theorem State.step_PathsOK_InputsOK {s s' : State} (op : Op) (hstep : s.step op = some s')
    (h : s.PathsOK ∧ s.InputsOK) : s'.PathsOK ∧ s'.InputsOK := by
  obtain ⟨hp, hi⟩ := h
  have same : ∀ t : State, t.paths_ = s.paths_ → t.nodes = s.nodes → t.edges_ = s.edges_ →
      t.PathsOK ∧ t.InputsOK := by
    intro t h1 h2 h3
    refine ⟨State.PathsOK_of h1 (h2 ▸ NodesKeep.refl _) hp,
      State.InputsOK_of (fun i e' he => ⟨e', h3 ▸ he, rfl⟩) (h2 ▸ NodesKeep.refl _) hi⟩
  cases op with
  | AddRule rule =>
    simp only [State.step, State.AddRule] at hstep
    split at hstep
    · simp only [Option.some.injEq] at hstep
      subst hstep
      exact same _ rfl rfl rfl
    · cases hstep
  | AddPool pool =>
    simp only [State.step, State.AddPool] at hstep
    split at hstep
    · simp only [Option.some.injEq] at hstep
      subst hstep
      exact same _ rfl rfl rfl
    · cases hstep
  | AddEdge rule pool =>
    simp only [State.step, State.AddEdge, Option.some.injEq] at hstep
    subst hstep
    refine ⟨State.PathsOK_of rfl (NodesKeep.refl _) hp, ?_⟩
    intro i e' he n hmem
    simp only at he
    rcases Nat.lt_or_ge i s.edges_.length with hlt | hge
    · rw [List.getElem?_append_left hlt] at he
      exact hi i e' he n hmem
    · rw [List.getElem?_append_right hge] at he
      cases hk : i - s.edges_.length with
      | zero =>
        rw [hk] at he
        simp only [List.getElem?_cons_zero, Option.some.injEq] at he
        rw [← he] at hmem
        simp at hmem
      | succ k =>
        rw [hk] at he
        simp at he
  | GetNode path =>
    simp only [State.step, Option.some.injEq] at hstep
    subst hstep
    exact ⟨State.GetNode_PathsOK hp path, State.GetNode_InputsOK hi path⟩
  | AddIn edge path =>
    simp only [State.step, Option.some.injEq] at hstep
    subst hstep
    exact ⟨State.AddIn_PathsOK hp edge path, State.AddIn_InputsOK hp hi edge path⟩
  | AddOut edge path =>
    simp only [State.step, Option.some.injEq] at hstep
    subst hstep
    exact ⟨State.AddOut_PathsOK hp edge path, State.AddOut_InputsOK hi edge path⟩
  | AddDefault path =>
    simp only [State.step, State.AddDefault, Option.some.injEq] at hstep
    subst hstep
    cases hl : s.LookupNode path with
    | none => simpa [hl] using And.intro hp hi
    | some node => simpa [hl] using same _ rfl rfl rfl
  | Reset =>
    simp only [State.step, Option.some.injEq] at hstep
    subst hstep
    refine ⟨@State.PathsOK_of s s.Reset rfl (NodesKeep.reset s.paths_ s.nodes) hp,
      @State.InputsOK_of s s.Reset ?_ (NodesKeep.reset s.paths_ s.nodes) hi⟩
    intro i e' he
    simp only [State.Reset, List.getElem?_map] at he
    cases hsi : s.edges_[i]? with
    | none => simp [hsi] at he
    | some e =>
      simp only [hsi, Option.map_some', Option.some.injEq] at he
      exact ⟨e, rfl, by rw [← he]⟩

theorem State.new_PathsOK_InputsOK : State.new.PathsOK ∧ State.new.InputsOK := by
  constructor
  · intro k n hk
    simp [State.LookupNode, State.new, State.empty, State.AddRule, State.AddPool,
      State.LookupRule, State.LookupPool, mapFind, mapAssign] at hk
  · intro i e he
    simp [State.new, State.empty, State.AddRule, State.AddPool,
      State.LookupRule, State.LookupPool, mapFind, mapAssign] at he

theorem State.run_PathsOK_InputsOK (ops : List Op) :
    ∀ s s' : State, s.run ops = some s' → s.PathsOK ∧ s.InputsOK → s'.PathsOK ∧ s'.InputsOK := by
  induction ops with
  | nil =>
    intro s s' hrun h
    simp only [State.run, Option.some.injEq] at hrun
    exact hrun ▸ h
  | cons op ops ih =>
    intro s s' hrun h
    simp only [State.run] at hrun
    cases hstep : s.step op with
    | none => simp [hstep] at hrun
    | some t =>
      simp only [hstep, Option.some_bind] at hrun
      exact ih t s' hrun (State.step_PathsOK_InputsOK op hstep h)

theorem State.step_LookupNode {s s' : State} (op : Op) (hstep : s.step op = some s')
    (q : String) (hq : op.createdPath ≠ some q) : s'.LookupNode q = s.LookupNode q := by
  have same : ∀ t : State, t.paths_ = s.paths_ → t.LookupNode q = s.LookupNode q := by
    intro t ht
    unfold State.LookupNode
    rw [ht]
  cases op with
  | AddRule rule =>
    simp only [State.step, State.AddRule] at hstep
    split at hstep
    · simp only [Option.some.injEq] at hstep
      subst hstep
      rfl
    · cases hstep
  | AddPool pool =>
    simp only [State.step, State.AddPool] at hstep
    split at hstep
    · simp only [Option.some.injEq] at hstep
      subst hstep
      rfl
    · cases hstep
  | AddEdge rule pool =>
    simp only [State.step, State.AddEdge, Option.some.injEq] at hstep
    subst hstep
    rfl
  | GetNode path =>
    simp only [State.step, Option.some.injEq] at hstep
    subst hstep
    have hne : q ≠ path := fun h => hq (by rw [h]; rfl)
    exact State.GetNode_LookupNode_ne s path q hne
  | AddIn edge path =>
    simp only [State.step, Option.some.injEq] at hstep
    subst hstep
    have hne : q ≠ path := fun h => hq (by rw [h]; rfl)
    rw [← State.GetNode_LookupNode_ne s path q hne]
    unfold State.LookupNode
    rw [(State.AddIn_fields s edge path).1]
  | AddOut edge path =>
    simp only [State.step, Option.some.injEq] at hstep
    subst hstep
    have hne : q ≠ path := fun h => hq (by rw [h]; rfl)
    rw [← State.GetNode_LookupNode_ne s path q hne]
    unfold State.LookupNode
    rw [(State.AddOut_fields s edge path).1]
  | AddDefault path =>
    simp only [State.step, State.AddDefault, Option.some.injEq] at hstep
    subst hstep
    cases hl : s.LookupNode path with
    | none => simp [hl]
    | some node => simp only [hl]; rfl
  | Reset =>
    simp only [State.step, Option.some.injEq] at hstep
    subst hstep
    rfl

theorem State.run_LookupNode (ops : List Op) (q : String) :
    ∀ s s' : State, s.run ops = some s' → (∀ op ∈ ops, op.createdPath ≠ some q) →
      s'.LookupNode q = s.LookupNode q := by
  induction ops with
  | nil =>
    intro s s' hrun _
    simp only [State.run, Option.some.injEq] at hrun
    rw [hrun]
  | cons op ops ih =>
    intro s s' hrun hall
    simp only [State.run] at hrun
    cases hstep : s.step op with
    | none => simp [hstep] at hrun
    | some t =>
      simp only [hstep, Option.some_bind] at hrun
      rw [ih t s' hrun (fun o ho => hall o (List.mem_cons_of_mem _ ho))]
      exact State.step_LookupNode op hstep q (hall op (List.mem_cons_self _ _))

/-! ## Claims about the registry -/

/-- C7. In every state reached from a fresh `State` by calls of its operations, and for
every path `p`: `GetNode(p)` returns a node whose path is `p`; a second `GetNode(p)`
returns the same node and changes nothing; `LookupNode(p)` then returns that node; the
binding of every other path and every node that existed before are as they were.  A path
that no call has handed to `GetNode`, directly or through `AddIn` or `AddOut`, is not
found by `LookupNode`, which is a pure lookup (it returns no new state). -/
theorem GetNode_LookupNode (ops : List Op) (s : State) (hs : State.new.run ops = some s)
    (p : String) :
    (∃ node, (s.GetNode p).1.nodes[(s.GetNode p).2]? = some node ∧ node.path_ = p) ∧
    (s.GetNode p).1.GetNode p = s.GetNode p ∧
    (s.GetNode p).1.LookupNode p = some (s.GetNode p).2 ∧
    (∀ q, q ≠ p → (s.GetNode p).1.LookupNode q = s.LookupNode q) ∧
    (∀ (n : NodePtr) (node : Node),
      s.nodes[n]? = some node → (s.GetNode p).1.nodes[n]? = some node) ∧
    (∀ q, (∀ op ∈ ops, op.createdPath ≠ some q) → s.LookupNode q = none) := by
  have hwf := State.run_PathsOK_InputsOK ops _ s hs State.new_PathsOK_InputsOK
  refine ⟨State.GetNode_node_path hwf.1 p, State.GetNode_twice s p,
    State.GetNode_LookupNode_self s p, fun q hq => State.GetNode_LookupNode_ne s p q hq,
    fun n node h => State.GetNode_nodes_mono s p n node h, ?_⟩
  intro q hq
  rw [State.run_LookupNode ops q _ s hs hq]
  rfl

theorem GetNode_LookupNode_witness :
    State.new.run [.GetNode "foo"] = some (State.new.GetNode "foo").1 ∧
    (∃ node, ((State.new.GetNode "foo").1.GetNode "foo").1.nodes[
        ((State.new.GetNode "foo").1.GetNode "foo").2]? = some node ∧ node.path_ = "foo") ∧
    (State.new.GetNode "foo").1.LookupNode "foo" = some 0 ∧
    (State.new.GetNode "foo").1.LookupNode "bar" = none :=
  have h := GetNode_LookupNode [.GetNode "foo"] (State.new.GetNode "foo").1 rfl "foo"
  ⟨rfl, h.1, by decide, h.2.2.2.2.2 "bar" (by decide)⟩

theorem State.AddOut_LookupNode (s : State) (edge : EdgePtr) (path : String) :
    (s.AddOut edge path).LookupNode path = some (s.GetNode path).2 := by
  rw [← State.GetNode_LookupNode_self s path]
  unfold State.LookupNode
  rw [(State.AddOut_fields s edge path).1]

theorem State.AddOut_node {s : State} (h : s.PathsOK) (edge : EdgePtr) (path : String) :
    ∃ nd : Node, (s.GetNode path).1.nodes[(s.GetNode path).2]? = some nd ∧ nd.path_ = path ∧
      (s.AddOut edge path).nodes[(s.GetNode path).2]? = some (nd.set_in_edge edge) := by
  obtain ⟨nd, hnd, hp⟩ := State.GetNode_node_path h path
  refine ⟨nd, hnd, hp, ?_⟩
  rw [(State.AddOut_fields s edge path).2.1, List.getElem?_modify_eq, hnd]
  rfl

theorem State.AddOut_producer {s : State} (h : s.PathsOK) (edge : EdgePtr) (path : String) :
    (s.AddOut edge path).producer path = some edge := by
  obtain ⟨nd, _, _, hnd⟩ := State.AddOut_node h edge path
  unfold State.producer
  rw [State.AddOut_LookupNode, Option.some_bind, hnd]
  rfl

theorem State.GetNode_in_edge (s : State) (path : String) (nd : Node)
    (hnd : (s.GetNode path).1.nodes[(s.GetNode path).2]? = some nd) :
    nd.in_edge_ = s.producer path := by
  unfold State.producer
  cases hl : s.LookupNode path with
  | some n =>
    rw [State.GetNode_found hl] at hnd
    simp only at hnd
    rw [Option.some_bind, hnd]
    rfl
  | none =>
    rw [State.GetNode_fresh hl] at hnd
    simp only at hnd
    rw [List.getElem?_concat_length] at hnd
    simp only [Option.some.injEq] at hnd
    rw [← hnd]
    rfl

theorem State.AddOut_warnings {s : State} (h : s.PathsOK) (edge : EdgePtr) (path : String) :
    (s.AddOut edge path).warnings =
      if s.producer path ≠ none then s.warnings ++ [State.multipleRulesWarning path]
      else s.warnings := by
  obtain ⟨nd, hnd, _⟩ := State.GetNode_node_path h path
  have hin := State.GetNode_in_edge s path nd hnd
  have hw := (State.GetNode_frame s path).2.2.2.2
  have : (s.AddOut edge path).warnings =
      if nd.in_edge_ ≠ none then
        (s.GetNode path).1.warnings ++ [State.multipleRulesWarning path]
      else (s.GetNode path).1.warnings := by
    show (match (s.GetNode path).1.nodes[(s.GetNode path).2]? with
      | some n => if n.in_edge_ ≠ none then
          (s.GetNode path).1.warnings ++ [State.multipleRulesWarning path]
        else (s.GetNode path).1.warnings
      | none => (s.GetNode path).1.warnings) = _
    rw [hnd]
  rw [this, hw, hin]

/-- C8. In every state reached from a fresh `State` by calls of its operations, and for
every edge of the edge list, `AddOut(edge, path)` appends the node of `path` (the one
`GetNode(path)` returns, registered for `path` afterwards) to the end of the outputs of
the edge and makes the edge the in-edge of that node; the call adds the warning about
`path` to the log when the node of `path` had an in-edge before the call, and adds
nothing to the log otherwise.  In particular, when `path` has no producer yet, `AddOut`
for `path` on one edge and then on another logs exactly one warning, and the producer
of `path` is the second edge afterwards. -/
theorem AddOut_sets_producer (ops : List Op) (s : State) (hs : State.new.run ops = some s)
    (edge : EdgePtr) (path : String) (hedge : edge < s.edges_.length) :
    (∃ e : Edge, s.edges_[edge]? = some e ∧
      (s.AddOut edge path).edges_[edge]? =
        some { e with outputs_ := e.outputs_ ++ [(s.GetNode path).2] }) ∧
    (s.AddOut edge path).LookupNode path = some (s.GetNode path).2 ∧
    (∃ nd : Node, (s.AddOut edge path).nodes[(s.GetNode path).2]? = some nd ∧
      nd.path_ = path ∧ nd.in_edge_ = some edge) ∧
    (s.AddOut edge path).producer path = some edge ∧
    (s.producer path ≠ none →
      (s.AddOut edge path).warnings = s.warnings ++ [State.multipleRulesWarning path]) ∧
    (s.producer path = none → (s.AddOut edge path).warnings = s.warnings) ∧
    (∀ e1 e2 : EdgePtr, s.producer path = none →
      ((s.AddOut e1 path).AddOut e2 path).warnings =
        s.warnings ++ [State.multipleRulesWarning path] ∧
      ((s.AddOut e1 path).AddOut e2 path).producer path = some e2) := by
  have hwf := (State.run_PathsOK_InputsOK ops _ s hs State.new_PathsOK_InputsOK).1
  have hw := State.AddOut_warnings hwf edge path
  refine ⟨?_, State.AddOut_LookupNode s edge path, ?_, State.AddOut_producer hwf edge path,
    ?_, ?_, ?_⟩
  · refine ⟨s.edges_[edge], by simp [hedge], ?_⟩
    rw [(State.AddOut_fields s edge path).2.2.1, List.getElem?_modify_eq]
    simp [hedge]
  · obtain ⟨nd, _, hp, hnd⟩ := State.AddOut_node hwf edge path
    exact ⟨nd.set_in_edge edge, hnd, hp, rfl⟩
  · intro hp
    rw [hw, if_pos hp]
  · intro hp
    rw [hw]
    simp [hp]
  · intro e1 e2 hp
    have hwf1 := State.AddOut_PathsOK hwf e1 path
    have h1 := State.AddOut_warnings hwf e1 path
    have h2 := State.AddOut_warnings hwf1 e2 path
    have hp1 := State.AddOut_producer hwf e1 path
    refine ⟨?_, State.AddOut_producer hwf1 e2 path⟩
    rw [h2, hp1, h1]
    simp [hp]

theorem AddOut_sets_producer_witness :
    State.new.run [.AddEdge kPhonyRule "", .AddEdge kPhonyRule ""] =
      some ((State.new.AddEdge kPhonyRule "").1.AddEdge kPhonyRule "").1 ∧
    1 < ((State.new.AddEdge kPhonyRule "").1.AddEdge kPhonyRule "").1.edges_.length ∧
    ((((State.new.AddEdge kPhonyRule "").1.AddEdge kPhonyRule "").1.AddOut 0 "out").AddOut 1
        "out").warnings =
      ((State.new.AddEdge kPhonyRule "").1.AddEdge kPhonyRule "").1.warnings ++
        [State.multipleRulesWarning "out"] ∧
    ((((State.new.AddEdge kPhonyRule "").1.AddEdge kPhonyRule "").1.AddOut 0 "out").AddOut 1
        "out").producer "out" = some 1 :=
  have h := AddOut_sets_producer [.AddEdge kPhonyRule "", .AddEdge kPhonyRule ""]
    ((State.new.AddEdge kPhonyRule "").1.AddEdge kPhonyRule "").1 rfl 1 "out" (by decide)
  ⟨rfl, by decide, h.2.2.2.2.2.2 0 1 (by decide)⟩

/-- C9. For every state, `AddDefault(path)` returns `false` exactly when no node is
registered for `path`.  It then sets the error to `unknown target '<path>'` and leaves
the whole state, default-target list and registry included, as it was.  When a node is
registered for `path` it returns `true`, leaves the error alone, appends that node to
the end of the default-target list and changes nothing else. -/
theorem AddDefault_unknown_target (s : State) (path err : String) :
    ((s.AddDefault path err).1 = false ↔ s.LookupNode path = none) ∧
    (s.LookupNode path = none →
      s.AddDefault path err = (false, s, "unknown target '" ++ path ++ "'")) ∧
    (∀ node, s.LookupNode path = some node →
      s.AddDefault path err = (true, { s with defaults_ := s.defaults_ ++ [node] }, err)) := by
  cases hl : s.LookupNode path with
  | none => simp [State.AddDefault, hl]
  | some node => simp [State.AddDefault, hl]

theorem AddDefault_unknown_target_witness :
    State.new.AddDefault "missing" "" = (false, State.new, "unknown target 'missing'") ∧
    (State.new.GetNode "all").1.AddDefault "all" "" =
      (true, { (State.new.GetNode "all").1 with
                 defaults_ := (State.new.GetNode "all").1.defaults_ ++ [0] }, "") :=
  ⟨(AddDefault_unknown_target State.new "missing" "").2.1 (by decide),
   (AddDefault_unknown_target (State.new.GetNode "all").1 "all" "").2.2 0 (by decide)⟩

theorem State.rootScan_inner (p : NodePtr → Bool) (outs : List NodePtr) :
    ∀ acc : List NodePtr,
      outs.foldl (fun acc out => if p out then acc ++ [out] else acc) acc =
        acc ++ outs.filter p := by
  induction outs with
  | nil => intro acc; simp
  | cons o outs ih =>
    intro acc
    rw [List.foldl_cons, ih]
    by_cases ho : p o <;> simp [ho]

theorem State.rootScan_outer (p : NodePtr → Bool) (edges : List Edge) :
    ∀ acc : List NodePtr,
      edges.foldl
        (fun root_nodes e =>
          e.outputs_.foldl (fun acc out => if p out then acc ++ [out] else acc) root_nodes)
        acc =
        acc ++ (edges.flatMap (fun e => e.outputs_)).filter p := by
  induction edges with
  | nil => intro acc; simp
  | cons e edges ih =>
    intro acc
    rw [List.foldl_cons, ih, State.rootScan_inner]
    simp [List.flatMap_cons]

theorem State.rootScan_eq (s : State) :
    s.rootScan =
      (s.edges_.flatMap (fun e => e.outputs_)).filter (fun n => (s.out_edges n).isEmpty) := by
  unfold State.rootScan
  rw [State.rootScan_outer (fun n => (s.out_edges n).isEmpty) s.edges_ []]
  simp

/-- C10. In every state reached from a fresh `State` by calls of its operations, the
list `RootNodes` collects is the list of all outputs of the edges of the edge list, in
edge order and then output order, with the nodes that have an out-edge left out.  So
a node is in it exactly when it is an output of some edge of the list and has no
out-edges, and a node that some edge of the list has as an input is never in it.
`RootNodes` returns that list, and leaves the error alone, when the edge list is empty
or the list is not empty; in the remaining case its final assertion fails.  For the
graph with an edge reading `A` and producing `B` and an edge reading `B` and producing
`C` it returns exactly the node of `C`. -/
theorem RootNodes_are_unconsumed_outputs (ops : List Op) (s : State)
    (hs : State.new.run ops = some s) (err : String) :
    s.rootScan =
      (s.edges_.flatMap (fun e => e.outputs_)).filter (fun n => (s.out_edges n).isEmpty) ∧
    (s.edges_ = [] ∨ s.rootScan ≠ [] → s.RootNodes err = some (s.rootScan, err)) ∧
    (s.edges_ ≠ [] ∧ s.rootScan = [] → s.RootNodes err = none) ∧
    (∀ n, n ∈ s.rootScan ↔ (∃ e ∈ s.edges_, n ∈ e.outputs_) ∧ s.out_edges n = []) ∧
    (∀ n, (∃ e ∈ s.edges_, n ∈ e.inputs_) → n ∉ s.rootScan) ∧
    (∃ t : State, State.new.run chainOps = some t ∧ t.RootNodes err = some ([2], err) ∧
      t.LookupNode "C" = some 2 ∧ t.LookupNode "B" = some 1 ∧ t.LookupNode "A" = some 0) := by
  have hwf := (State.run_PathsOK_InputsOK ops _ s hs State.new_PathsOK_InputsOK).2
  have hmem : ∀ n, n ∈ s.rootScan ↔ (∃ e ∈ s.edges_, n ∈ e.outputs_) ∧ s.out_edges n = [] := by
    intro n
    rw [State.rootScan_eq, List.mem_filter, List.mem_flatMap, List.isEmpty_iff]
  have hret : ∀ t : State, t.edges_ = [] ∨ t.rootScan ≠ [] →
      t.RootNodes err = some (t.rootScan, err) := by
    intro t h
    unfold State.RootNodes
    simp only [List.isEmpty_iff]
    rw [if_pos h]
    have : ¬ (¬ t.edges_ = [] ∧ t.rootScan = []) := by
      rintro ⟨h1, h2⟩
      rcases h with h | h
      · exact h1 h
      · exact h h2
    rw [if_neg this]
  refine ⟨State.rootScan_eq s, hret s, ?_, hmem, ?_, ?_⟩
  · rintro ⟨h1, h2⟩
    unfold State.RootNodes
    simp only [List.isEmpty_iff]
    have : ¬ (s.edges_ = [] ∨ ¬ s.rootScan = []) := by
      rintro (h | h)
      · exact h1 h
      · exact h h2
    rw [if_neg this]
  · rintro n ⟨e, he, hn⟩ hroot
    obtain ⟨i, hi⟩ := List.getElem?_of_mem he
    obtain ⟨node, hnode, hout⟩ := hwf i e hi n hn
    have h0 := ((hmem n).mp hroot).2
    unfold State.out_edges at h0
    rw [hnode] at h0
    simp only at h0
    rw [h0] at hout
    exact List.not_mem_nil _ hout
  · obtain ⟨t, ht⟩ : ∃ t, State.new.run chainOps = some t := ⟨_, rfl⟩
    have hscan : (State.new.run chainOps).map (fun t => t.rootScan) = some [2] := by decide
    have hlook : (State.new.run chainOps).map
        (fun t => (t.LookupNode "C", t.LookupNode "B", t.LookupNode "A")) =
        some (some 2, some 1, some 0) := by decide
    rw [ht] at hscan hlook
    simp only [Option.map_some', Option.some.injEq, Prod.mk.injEq] at hscan hlook
    refine ⟨t, ht, ?_, hlook.1, hlook.2.1, hlook.2.2⟩
    have := hret t (Or.inr (by rw [hscan]; simp))
    rw [hscan] at this
    exact this

theorem RootNodes_are_unconsumed_outputs_witness :
    State.new.run [.AddEdge kPhonyRule "", .AddOut 0 "out"] =
      some ((State.new.AddEdge kPhonyRule "").1.AddOut 0 "out") ∧
    ((State.new.AddEdge kPhonyRule "").1.AddOut 0 "out").RootNodes "" = some ([0], "") :=
  have h := RootNodes_are_unconsumed_outputs [.AddEdge kPhonyRule "", .AddOut 0 "out"]
    ((State.new.AddEdge kPhonyRule "").1.AddOut 0 "out") rfl ""
  ⟨rfl, (h.2.1 (Or.inr (by decide))).trans (by decide)⟩

/-! ## Claims about the scheduler, continued -/

/-- C13. For every scheduler whose ready set is empty, `NextUnit` returns `NULL` and
leaves the scheduler as it is; so any number of calls in a row return `NULL`, leave the
state unchanged and `UnitsWaiting` stays 0.  (Only `Schedule` makes the ready set
non-empty: `NextUnit` does not change such a state.) -/
theorem NextUnit_empty (weight : EdgePtr → Int) (s : Scheduler) (hempty : s.ready_ = ∅)
    (n : Nat) :
    s.NextUnit weight = some (none, s) ∧
    s.UnitsWaiting = 0 ∧
    (fun r : Option (Option EdgePtr × Scheduler) =>
        r.bind (fun p => p.2.NextUnit weight))^[n] (s.NextUnit weight) = some (none, s) ∧
    (∀ e, (s.Schedule e).ready_ = {e} ∧ (s.Schedule e).UnitsWaiting = 1) := by
  have h1 : s.NextUnit weight = some (none, s) := by simp [Scheduler.NextUnit, hempty]
  refine ⟨h1, by simp [Scheduler.UnitsWaiting, hempty], ?_, ?_⟩
  swap
  · intro e
    simp [Scheduler.Schedule, Scheduler.UnitsWaiting, hempty]
  induction n with
  | zero => exact h1
  | succ n ih =>
    rw [Function.iterate_succ_apply', ih]
    exact h1

theorem NextUnit_empty_witness :
    Scheduler.new.ready_ = ∅ ∧
    Scheduler.new.NextUnit weights5153 = some (none, Scheduler.new) ∧
    Scheduler.new.UnitsWaiting = 0 ∧
    (fun r : Option (Option EdgePtr × Scheduler) =>
        r.bind (fun p => p.2.NextUnit weights5153))^[3] (Scheduler.new.NextUnit weights5153) =
      some (none, Scheduler.new) ∧
    (∀ e, (Scheduler.new.Schedule e).ready_ = {e} ∧ (Scheduler.new.Schedule e).UnitsWaiting = 1) :=
  ⟨rfl, NextUnit_empty weights5153 Scheduler.new rfl 3⟩

/-- C15. In every scheduler state reachable from the fresh scheduler by `Schedule` and
`NextUnit` calls, the priority queue holds exactly the edges of the ready set and holds
each of them once; so `UnitsWaiting` is the number of queued edges, and `NextUnit` has a
defined result: it never takes the top of an empty queue. -/
theorem queue_matches_ready_set (weight : EdgePtr → Int) (s : Scheduler)
    (hr : Scheduler.Reachable weight s) :
    (∀ e, e ∈ s.prioritized_ ↔ e ∈ s.ready_) ∧
    s.prioritized_.Nodup ∧
    (∀ e ∈ s.ready_, List.count e s.prioritized_ = 1) ∧
    s.UnitsWaiting = s.prioritized_.length ∧
    s.NextUnit weight ≠ none ∧
    (s.ready_ ≠ ∅ → pqTop (EdgeWeightComparison weight) s.prioritized_ ≠ none) := by
  have hc := hr.consistent
  have hset : s.ready_ = s.prioritized_.toFinset := by
    ext e
    rw [List.mem_toFinset, hc.2 e]
  have htop : s.ready_ ≠ ∅ → pqTop (EdgeWeightComparison weight) s.prioritized_ ≠ none := by
    intro hne
    obtain ⟨edge, h, _⟩ := Scheduler.NextUnit_of_nonempty weight hc hne
    rw [h]
    exact Option.some_ne_none _
  refine ⟨hc.2, hc.1, ?_, ?_, ?_, htop⟩
  · intro e he
    exact List.count_eq_one_of_mem hc.1 ((hc.2 e).mpr he)
  · show s.ready_.card = s.prioritized_.length
    rw [hset, List.toFinset_card_of_nodup hc.1]
  · by_cases hne : s.ready_ = ∅
    · simp [Scheduler.NextUnit, hne]
    · obtain ⟨edge, _, h⟩ := Scheduler.NextUnit_of_nonempty weight hc hne
      rw [h]
      exact Option.some_ne_none _

theorem queue_matches_ready_set_witness :
    Scheduler.Reachable weights5153 (Scheduler.new.ScheduleAll [0, 1, 2, 3]) ∧
    (Scheduler.new.ScheduleAll [0, 1, 2, 3]).UnitsWaiting =
      (Scheduler.new.ScheduleAll [0, 1, 2, 3]).prioritized_.length ∧
    (Scheduler.new.ScheduleAll [0, 1, 2, 3]).NextUnit weights5153 ≠ none :=
  have hr := Scheduler.ScheduleAll_reachable weights5153 Scheduler.new [0, 1, 2, 3] .new
  have h := queue_matches_ready_set weights5153 _ hr
  ⟨hr, h.2.2.2.1, h.2.2.2.2.1⟩

/-! ## Claims about pools, continued -/

theorem Scheduler.Schedule_ready (s : Scheduler) (edge : EdgePtr) :
    (s.Schedule edge).ready_ = insert edge s.ready_ := by
  by_cases hm : edge ∈ s.ready_
  · simp [Scheduler.Schedule, hm]
  · simp [Scheduler.Schedule, hm]

theorem Pool.retrieveLoopScheduler_ready (weight : EdgePtr → Int) :
    ∀ (delayed : List EdgePtr) (p : Pool) (ready_queue : Finset EdgePtr)
      (scheduler : Scheduler) (log : List EdgePtr),
      scheduler.ready_ = ready_queue →
      (Pool.retrieveLoopScheduler weight delayed p scheduler log).2.1.ready_ =
        (Pool.retrieveLoop weight delayed p ready_queue log).2.1 := by
  intro delayed
  induction delayed with
  | nil => intro p rq sch log h; exact h
  | cons e ds ih =>
    intro p rq sch log h
    by_cases hover : wrapInt (p.current_use_ + weight e) > p.depth_
    · simpa [Pool.retrieveLoopScheduler, Pool.retrieveLoop, hover] using h
    · simp only [Pool.retrieveLoopScheduler, Pool.retrieveLoop, hover, if_false]
      apply ih
      rw [Scheduler.Schedule_ready, h]

/-- C19. Started from the same pool, `RetrieveReadyEdges(set<Edge*>*)` and
`RetrieveReadyEdges(Scheduler&)` hand the same edges to their sink in the same order
and leave the same pool behind (the same `current_use_` and the same delayed queue
in particular); and when the raw set equals the ready set of the scheduler before the
calls, it equals the ready set of the scheduler after them. -/
theorem RetrieveReadyEdges_overloads_agree (weight : EdgePtr → Int) (p : Pool)
    (ready_queue : Finset EdgePtr) (scheduler : Scheduler) :
    (p.RetrieveReadyEdgesScheduler weight scheduler).2.2 =
      (p.RetrieveReadyEdges weight ready_queue).2.2 ∧
    (p.RetrieveReadyEdgesScheduler weight scheduler).1 =
      (p.RetrieveReadyEdges weight ready_queue).1 ∧
    (p.RetrieveReadyEdgesScheduler weight scheduler).1.current_use_ =
      (p.RetrieveReadyEdges weight ready_queue).1.current_use_ ∧
    (p.RetrieveReadyEdgesScheduler weight scheduler).1.delayed_ =
      (p.RetrieveReadyEdges weight ready_queue).1.delayed_ ∧
    (scheduler.ready_ = ready_queue →
      (p.RetrieveReadyEdgesScheduler weight scheduler).2.1.ready_ =
        (p.RetrieveReadyEdges weight ready_queue).2.1) := by
  obtain ⟨h1, h2⟩ := Pool.retrieveLoopScheduler_pool weight p.delayed_ p ready_queue scheduler []
  have h1' : (p.RetrieveReadyEdgesScheduler weight scheduler).1 =
      (p.RetrieveReadyEdges weight ready_queue).1 := h1
  refine ⟨h2, h1', by rw [h1'], by rw [h1'], ?_⟩
  intro h
  exact Pool.retrieveLoopScheduler_ready weight p.delayed_ p ready_queue scheduler [] h

theorem RetrieveReadyEdges_overloads_agree_witness :
    (pool4.RetrieveReadyEdgesScheduler weights331 (Scheduler.new.Schedule 7)).2.2 =
      (pool4.RetrieveReadyEdges weights331 {7}).2.2 ∧
    (pool4.RetrieveReadyEdgesScheduler weights331 (Scheduler.new.Schedule 7)).1 =
      (pool4.RetrieveReadyEdges weights331 {7}).1 ∧
    (pool4.RetrieveReadyEdgesScheduler weights331 (Scheduler.new.Schedule 7)).2.1.ready_ =
      (pool4.RetrieveReadyEdges weights331 {7}).2.1 :=
  have h := RetrieveReadyEdges_overloads_agree weights331 pool4 {7} (Scheduler.new.Schedule 7)
  ⟨h.1, h.2.1, h.2.2.2.2 (by decide)⟩

theorem Pool.RetrieveReadyEdgesScheduler_spec (weight : EdgePtr → Int) (p : Pool)
    (scheduler : Scheduler) (h : p.delayed_ ≠ [] → p.depth_ ≠ 0) :
    ∃ released rest, p.delayed_ = released ++ rest ∧
      (p.RetrieveReadyEdgesScheduler weight scheduler).1 =
        { p with current_use_ := Pool.usageAfter weight p.current_use_ released,
                 delayed_ := rest } ∧
      (p.RetrieveReadyEdgesScheduler weight scheduler).2.1.ready_ =
        scheduler.ready_ ∪ released.toFinset ∧
      (p.RetrieveReadyEdgesScheduler weight scheduler).2.2 = released := by
  have hp := Pool.retrieveLoopScheduler_pool weight p.delayed_ p scheduler.ready_ scheduler []
  have hr := Pool.retrieveLoopScheduler_ready weight p.delayed_ p scheduler.ready_ scheduler []
    rfl
  by_cases hnil : p.delayed_ = []
  · refine ⟨[], [], by simp [hnil], ?_, ?_, ?_⟩
    · obtain ⟨name, depth, cu, dl⟩ := p
      simp only at hnil
      subst hnil
      simp [Pool.RetrieveReadyEdgesScheduler, Pool.retrieveLoopScheduler, Pool.usageAfter]
    · simp [Pool.RetrieveReadyEdgesScheduler, hnil, Pool.retrieveLoopScheduler]
    · simp [Pool.RetrieveReadyEdgesScheduler, hnil, Pool.retrieveLoopScheduler]
  · obtain ⟨released, rest, hsplit, hloop, _, _⟩ :=
      Pool.retrieveLoop_spec weight p.delayed_ p scheduler.ready_ [] (h hnil) rfl
    rw [hloop] at hp hr
    refine ⟨released, rest, hsplit, hp.1, hr, ?_⟩
    have := hp.2
    simpa using this

/-- C18, as the code has it.  For a pool that satisfies the precondition `DelayEdge`
asserts (depth is not 0 once an edge is delayed), `RetrieveReadyEdges(Scheduler&)`
charges every edge it takes off the delayed queue: `current_use_` afterwards is what the
`int` additions of the weights of the released edges make of it.  When `current_use_`
plus the weights of any prefix of the delayed queue is a value of `int`, `current_use_`
has risen by the total weight of the released edges; and that is the total weight of
the edges newly added to the ready set of the scheduler when, in addition, the delayed
queue holds no edge twice and none of its edges is in the ready set already. -/
theorem RetrieveReadyEdges_charge (weight : EdgePtr → Int) (p : Pool) (scheduler : Scheduler)
    (h : p.delayed_ ≠ [] → p.depth_ ≠ 0) :
    (p.RetrieveReadyEdgesScheduler weight scheduler).1.current_use_ =
      Pool.usageAfter weight p.current_use_
        (p.RetrieveReadyEdgesScheduler weight scheduler).2.2 ∧
    ((∀ j ≤ p.delayed_.length,
        InIntRange (p.current_use_ + ((p.delayed_.take j).map weight).sum)) →
      (p.RetrieveReadyEdgesScheduler weight scheduler).1.current_use_ - p.current_use_ =
        ((p.RetrieveReadyEdgesScheduler weight scheduler).2.2.map weight).sum ∧
      (p.delayed_.Nodup → (∀ e ∈ p.delayed_, e ∉ scheduler.ready_) →
        (p.RetrieveReadyEdgesScheduler weight scheduler).1.current_use_ - p.current_use_ =
          newlyReadyWeight weight scheduler
            (p.RetrieveReadyEdgesScheduler weight scheduler).2.1)) := by
  obtain ⟨released, rest, hsplit, hpool, hready, hlog⟩ :=
    Pool.RetrieveReadyEdgesScheduler_spec weight p scheduler h
  refine ⟨by rw [hpool, hlog], ?_⟩
  intro hrange
  obtain ⟨hsum, _⟩ :=
    Pool.usageAfter_released weight p.current_use_ p.delayed_ released rest hsplit hrange
  have hcharge : (p.RetrieveReadyEdgesScheduler weight scheduler).1.current_use_ -
      p.current_use_ = (released.map weight).sum := by
    rw [hpool]
    simp only
    rw [hsum]
    ring
  refine ⟨by rw [hcharge, hlog], ?_⟩
  intro hnd hdis
  rw [hcharge]
  unfold newlyReadyWeight
  rw [hready, Finset.union_sdiff_left]
  have hnd' : released.Nodup := by
    rw [hsplit] at hnd
    exact (List.nodup_append.mp hnd).1
  have hdisj : Disjoint released.toFinset scheduler.ready_ := by
    rw [Finset.disjoint_left]
    intro e he
    rw [List.mem_toFinset] at he
    exact hdis e (by rw [hsplit]; exact List.mem_append_left _ he)
  rw [Finset.sdiff_eq_self_of_disjoint hdisj, List.sum_toFinset weight hnd']

theorem RetrieveReadyEdges_charge_witness :
    (pool4.delayed_ ≠ [] → pool4.depth_ ≠ 0) ∧
    (pool4.RetrieveReadyEdgesScheduler weights331 (Scheduler.new.Schedule 7)).1.current_use_ -
        pool4.current_use_ =
      ((pool4.RetrieveReadyEdgesScheduler weights331 (Scheduler.new.Schedule 7)).2.2.map
        weights331).sum ∧
    (pool4.RetrieveReadyEdgesScheduler weights331 (Scheduler.new.Schedule 7)).1.current_use_ -
        pool4.current_use_ =
      newlyReadyWeight weights331 (Scheduler.new.Schedule 7)
        (pool4.RetrieveReadyEdgesScheduler weights331 (Scheduler.new.Schedule 7)).2.1 :=
  have h := (RetrieveReadyEdges_charge weights331 pool4 (Scheduler.new.Schedule 7)
    (by decide)).2 (by decide)
  ⟨by decide, h.1, h.2 (by decide) (by decide)⟩

/-- C18, as stated, fails.  A pool of depth 4 in which `DelayEdge` was called twice for
the same edge of weight 1 releases the edge twice into a fresh scheduler: `current_use_`
rises by 2, while the only edge newly added to the ready set weighs 1.  Likewise, when
the first delayed edge of `pool4` (weight 3) is in the ready set already, its release
raises `current_use_` by 3 and adds nothing to the ready set. -/
theorem RetrieveReadyEdges_charge_counterexample :
    ((Pool.new "link" 4).DelayEdge 2).bind (fun p => p.DelayEdge 2) = some poolTwice ∧
    (poolTwice.RetrieveReadyEdgesScheduler weights331 Scheduler.new).1.current_use_ -
        poolTwice.current_use_ ≠
      newlyReadyWeight weights331 Scheduler.new
        (poolTwice.RetrieveReadyEdgesScheduler weights331 Scheduler.new).2.1 ∧
    (poolTwice.RetrieveReadyEdgesScheduler weights331 Scheduler.new).1.current_use_ -
        poolTwice.current_use_ = 2 ∧
    newlyReadyWeight weights331 Scheduler.new
        (poolTwice.RetrieveReadyEdgesScheduler weights331 Scheduler.new).2.1 = 1 ∧
    (pool4.RetrieveReadyEdgesScheduler weights331 (Scheduler.new.Schedule 0)).1.current_use_ -
        pool4.current_use_ = 3 ∧
    newlyReadyWeight weights331 (Scheduler.new.Schedule 0)
        (pool4.RetrieveReadyEdgesScheduler weights331 (Scheduler.new.Schedule 0)).2.1 = 0 := by
  decide

/-! ## Claims about the registry, continued -/

theorem spellFold_spec (d : String → Int) (l : List (String × NodePtr)) :
    ∀ acc : Int × Option NodePtr,
      (l.foldl (fun acc i => if d i.1 < acc.1 then (d i.1, some i.2) else acc) acc).1 ≤ acc.1 ∧
      (∀ kv ∈ l,
        (l.foldl (fun acc i => if d i.1 < acc.1 then (d i.1, some i.2) else acc) acc).1
          ≤ d kv.1) ∧
      ((∀ kv ∈ l, acc.1 ≤ d kv.1) →
        l.foldl (fun acc i => if d i.1 < acc.1 then (d i.1, some i.2) else acc) acc = acc) ∧
      ((∃ kv ∈ l, d kv.1 < acc.1) →
        ∃ (i : Nat) (kv : String × NodePtr), l[i]? = some kv ∧
          l.foldl (fun acc i => if d i.1 < acc.1 then (d i.1, some i.2) else acc) acc =
            (d kv.1, some kv.2) ∧
          ∀ (j : Nat) (kv' : String × NodePtr), j < i → l[j]? = some kv' →
            d kv.1 < d kv'.1) := by
  induction l with
  | nil =>
    intro acc
    refine ⟨le_refl _, ?_, fun _ => rfl, ?_⟩
    · intro kv hkv; cases hkv
    · rintro ⟨kv, hkv, _⟩; cases hkv
  | cons x xs ih =>
    intro acc
    rw [List.foldl_cons]
    have hacc' : (if d x.1 < acc.1 then (d x.1, some x.2) else acc).1 ≤ acc.1 ∧
        (if d x.1 < acc.1 then (d x.1, some x.2) else acc).1 ≤ d x.1 := by
      by_cases hx : d x.1 < acc.1
      · simp only [hx, if_true]; omega
      · simp only [hx, if_false]; omega
    obtain ⟨h1, h2, h3, h4⟩ := ih (if d x.1 < acc.1 then (d x.1, some x.2) else acc)
    refine ⟨le_trans h1 hacc'.1, ?_, ?_, ?_⟩
    · intro kv hkv
      rcases List.mem_cons.mp hkv with rfl | hkv
      · exact le_trans h1 hacc'.2
      · exact h2 kv hkv
    · intro hall
      have hx : ¬ d x.1 < acc.1 := not_lt.mpr (hall x (List.mem_cons_self _ _))
      simp only [hx, if_false] at h3 ⊢
      exact h3 (fun kv hkv => hall kv (List.mem_cons_of_mem _ hkv))
    · rintro ⟨kv0, hkv0, hlt0⟩
      by_cases hex : ∃ kv ∈ xs, d kv.1 < (if d x.1 < acc.1 then (d x.1, some x.2) else acc).1
      · obtain ⟨i, kv, hi, hres, hfirst⟩ := h4 hex
        refine ⟨i + 1, kv, by simpa using hi, hres, ?_⟩
        intro j kv' hj hj'
        cases j with
        | zero =>
          simp only [List.getElem?_cons_zero, Option.some.injEq] at hj'
          subst hj'
          obtain ⟨kv1, hkv1, hlt1⟩ := hex
          have hle := h2 kv1 hkv1
          rw [hres] at hle
          simp only at hle
          omega
        | succ j =>
          simp only [List.getElem?_cons_succ] at hj'
          exact hfirst j kv' (by omega) hj'
      · have hall : ∀ kv ∈ xs,
            (if d x.1 < acc.1 then (d x.1, some x.2) else acc).1 ≤ d kv.1 := by
          intro kv hkv
          by_contra hlt
          exact hex ⟨kv, hkv, not_le.mp hlt⟩
        have hres := h3 hall
        by_cases hx : d x.1 < acc.1
        · refine ⟨0, x, by simp, ?_, ?_⟩
          · rw [hres]; simp [hx]
          · intro j kv' hj _; omega
        · exfalso
          simp only [hx, if_false] at hall
          rcases List.mem_cons.mp hkv0 with rfl | hkv0
          · exact hx hlt0
          · have := hall kv0 hkv0
            omega

/-- C12. For any edit-distance function, `SpellcheckNode(path)` returns `NULL` exactly
when every path registered in the table has a distance above 3 to `path` (as when the
table is empty).  Otherwise it returns the node of the first entry, in the iteration
order of the table, whose distance is the least distance of all entries.  When the table
holds `foo.cc` and `bar.o`, in either order, and `foo.cc` is within distance 3 of `foo.c`
and nearer to it than `bar.o` is, the node of `foo.cc` is returned for `foo.c`. -/
theorem SpellcheckNode_nearest (dist : String → String → Bool → Int → Int) (s : State)
    (path : String) :
    (s.SpellcheckNode dist path = none ↔ ∀ kv ∈ s.paths_, dist kv.1 path true 3 > 3) ∧
    ((∃ kv ∈ s.paths_, dist kv.1 path true 3 ≤ 3) →
      ∃ (i : Nat) (kv : String × NodePtr), s.paths_[i]? = some kv ∧
        s.SpellcheckNode dist path = some kv.2 ∧
        (∀ kv' ∈ s.paths_, dist kv.1 path true 3 ≤ dist kv'.1 path true 3) ∧
        (∀ (j : Nat) (kv' : String × NodePtr), j < i → s.paths_[j]? = some kv' →
          dist kv.1 path true 3 < dist kv'.1 path true 3)) ∧
    (∀ a b : NodePtr, path = "foo.c" →
      dist "foo.cc" "foo.c" true 3 ≤ 3 →
      dist "foo.cc" "foo.c" true 3 < dist "bar.o" "foo.c" true 3 →
      s.paths_ = [("foo.cc", a), ("bar.o", b)] ∨ s.paths_ = [("bar.o", b), ("foo.cc", a)] →
      s.SpellcheckNode dist path = some a) := by
  obtain ⟨_, h2, h3, h4⟩ := spellFold_spec (fun k => dist k path true 3) s.paths_ (3 + 1, none)
  have hfound : (∃ kv ∈ s.paths_, dist kv.1 path true 3 ≤ 3) →
      ∃ (i : Nat) (kv : String × NodePtr), s.paths_[i]? = some kv ∧
        s.SpellcheckNode dist path = some kv.2 ∧
        (∀ kv' ∈ s.paths_, dist kv.1 path true 3 ≤ dist kv'.1 path true 3) ∧
        (∀ (j : Nat) (kv' : String × NodePtr), j < i → s.paths_[j]? = some kv' →
          dist kv.1 path true 3 < dist kv'.1 path true 3) := by
    rintro ⟨kv0, hkv0, hle0⟩
    obtain ⟨i, kv, hi, hres, hfirst⟩ := h4 ⟨kv0, hkv0, by simp only; omega⟩
    refine ⟨i, kv, hi, ?_, ?_, hfirst⟩
    · unfold State.SpellcheckNode
      exact congrArg Prod.snd hres
    · intro kv' hkv'
      have := h2 kv' hkv'
      rw [hres] at this
      exact this
  refine ⟨⟨?_, ?_⟩, hfound, ?_⟩
  · intro hnone kv hkv
    by_contra hle
    obtain ⟨i, kv1, _, hsome, _⟩ := hfound ⟨kv, hkv, by omega⟩
    rw [hnone] at hsome
    cases hsome
  · intro hall
    have := h3 (fun kv hkv => by have := hall kv hkv; simp only; omega)
    unfold State.SpellcheckNode
    exact congrArg Prod.snd this
  · intro a b hpath hnear hless hreg
    subst hpath
    obtain ⟨i, kv, hi, hres, hmin, _⟩ :=
      hfound ⟨("foo.cc", a), by rcases hreg with h | h <;> simp [h], hnear⟩
    have hkv : kv = ("foo.cc", a) := by
      have hmem : kv ∈ s.paths_ := List.getElem?_mem hi
      have hle := hmin ("foo.cc", a) (by rcases hreg with h | h <;> simp [h])
      rcases hreg with h | h <;> rw [h] at hmem <;> simp at hmem <;>
        rcases hmem with rfl | rfl <;> first | rfl | (simp only at hle; omega)
    rw [hres, hkv]

theorem SpellcheckNode_nearest_witness :
    ((State.new.GetNode "foo.cc").1.GetNode "bar.o").1.SpellcheckNode EditDistance "foo.c" =
      some 0 ∧
    (State.new.SpellcheckNode EditDistance "foo.c" = none ↔
      ∀ kv ∈ State.new.paths_, EditDistance kv.1 "foo.c" true 3 > 3) :=
  ⟨(SpellcheckNode_nearest EditDistance ((State.new.GetNode "foo.cc").1.GetNode "bar.o").1
      "foo.c").2.2 0 1 rfl (by decide) (by decide) (Or.inl (by decide)),
   (SpellcheckNode_nearest EditDistance State.new "foo.c").1⟩

/-- C14. A fresh `State` has the rule `phony` registered and nothing else in the rule
table, and the default pool, which has the empty name and depth 0, registered and
nothing else in the pool table.  In every state, `AddRule(r)` with a name that is not
registered succeeds, makes `LookupRule` return `r` for that name, leaves the result for
every other name as it was and changes no other member; with a registered name, `phony`
on a fresh state included, its assertion fails.  `AddPool` and `LookupPool` behave the
same way. -/
theorem AddRule_AddPool_registry (s : State) (rule : Rule) (pool : Pool) :
    (State.new.LookupRule "phony" = some kPhonyRule ∧ kPhonyRule.name_ = "phony" ∧
      ∀ name, name ≠ "phony" → State.new.LookupRule name = none) ∧
    (State.new.LookupPool "" = some kDefaultPool ∧ kDefaultPool.name_ = "" ∧
      kDefaultPool.depth_ = 0 ∧
      ∀ name, name ≠ "" → State.new.LookupPool name = none) ∧
    (s.LookupRule rule.name_ = none →
      ∃ s', s.AddRule rule = some s' ∧ s'.LookupRule rule.name_ = some rule ∧
        (∀ name, name ≠ rule.name_ → s'.LookupRule name = s.LookupRule name) ∧
        s' = { s with rules_ := s'.rules_ }) ∧
    (s.LookupRule rule.name_ ≠ none → s.AddRule rule = none) ∧
    State.new.AddRule kPhonyRule = none ∧
    (s.LookupPool pool.name_ = none →
      ∃ s', s.AddPool pool = some s' ∧ s'.LookupPool pool.name_ = some pool ∧
        (∀ name, name ≠ pool.name_ → s'.LookupPool name = s.LookupPool name) ∧
        s' = { s with pools_ := s'.pools_ }) ∧
    (s.LookupPool pool.name_ ≠ none → s.AddPool pool = none) ∧
    State.new.AddPool kDefaultPool = none := by
  have hnew : State.new =
      { State.empty with rules_ := [("phony", kPhonyRule)], pools_ := [("", kDefaultPool)] } := by
    decide
  refine ⟨⟨by decide, rfl, ?_⟩, ⟨by decide, rfl, rfl, ?_⟩, ?_, ?_, by decide, ?_, ?_, by decide⟩
  · intro name hname
    have : ¬ "phony" = name := fun h => hname h.symm
    rw [hnew]
    simp [State.LookupRule, mapFind, this]
  · intro name hname
    have : ¬ "" = name := fun h => hname h.symm
    rw [hnew]
    simp [State.LookupPool, mapFind, this]
  · intro h
    refine ⟨{ s with rules_ := mapAssign rule.name_ rule s.rules_ }, ?_, ?_, ?_, rfl⟩
    · simp [State.AddRule, h]
    · exact mapFind_mapAssign_self _ _ _
    · intro name hname
      exact mapFind_mapAssign_ne _ _ _ name hname
  · intro h
    simp [State.AddRule, h]
  · intro h
    refine ⟨{ s with pools_ := mapAssign pool.name_ pool s.pools_ }, ?_, ?_, ?_, rfl⟩
    · simp [State.AddPool, h]
    · exact mapFind_mapAssign_self _ _ _
    · intro name hname
      exact mapFind_mapAssign_ne _ _ _ name hname
  · intro h
    simp [State.AddPool, h]

theorem AddRule_AddPool_registry_witness :
    (∃ s', State.new.AddRule { name_ := "cc" } = some s' ∧
      s'.LookupRule "cc" = some { name_ := "cc" } ∧
      (∀ name, name ≠ "cc" → s'.LookupRule name = State.new.LookupRule name) ∧
      s' = { State.new with rules_ := s'.rules_ }) ∧
    (∃ s', State.new.AddPool pool4 = some s' ∧ s'.LookupPool "link" = some pool4 ∧
      (∀ name, name ≠ "link" → s'.LookupPool name = State.new.LookupPool name) ∧
      s' = { State.new with pools_ := s'.pools_ }) :=
  have h := AddRule_AddPool_registry State.new { name_ := "cc" } pool4
  ⟨h.2.2.1 (by decide), h.2.2.2.2.2.1 (by decide)⟩

theorem mapFind_mem_values {β : Type} (key : String) (value : β) (m : List (String × β))
    (h : mapFind key m = some value) : value ∈ m.map Prod.snd := by
  induction m with
  | nil => simp [mapFind] at h
  | cons kv m ih =>
    obtain ⟨k, v⟩ := kv
    by_cases hk : k = key
    · simp [mapFind, hk] at h
      simp [h]
    · simp only [mapFind, hk, if_false] at h
      simp [ih h]

theorem State.reset_nodes (kvs : List (String × NodePtr)) :
    ∀ (nodes : List Node) (n : NodePtr) (node : Node), nodes[n]? = some node →
      (kvs.foldl (fun nodes kv => List.modify Node.ResetState kv.2 nodes) nodes)[n]? =
        some (if n ∈ kvs.map Prod.snd then node.ResetState else node) := by
  induction kvs with
  | nil => intro nodes n node h; simpa using h
  | cons kv kvs ih =>
    intro nodes n node h
    rw [List.foldl_cons]
    by_cases hkv : kv.2 = n
    · have h1 : (List.modify Node.ResetState kv.2 nodes)[n]? = some node.ResetState := by
        rw [List.getElem?_modify, h]; simp [hkv]
      rw [ih _ n _ h1]
      have hidem : node.ResetState.ResetState = node.ResetState := rfl
      simp [hkv, hidem]
    · have h1 : (List.modify Node.ResetState kv.2 nodes)[n]? = some node := by
        rw [List.getElem?_modify, h]; simp [hkv]
      rw [ih _ n _ h1]
      have hne : ¬ n = kv.2 := fun h' => hkv h'.symm
      simp only [List.map_cons, List.mem_cons, hne, false_or]

theorem State.reset_nodes_length (kvs : List (String × NodePtr)) :
    ∀ nodes : List Node,
      (kvs.foldl (fun nodes kv => List.modify Node.ResetState kv.2 nodes) nodes).length =
        nodes.length := by
  induction kvs with
  | nil => intro nodes; rfl
  | cons kv kvs ih => intro nodes; rw [List.foldl_cons, ih, List.length_modify]

/-- C11. After `Reset`, whatever the statuses and flags were before, every node
registered in the path table has the status unknown and is otherwise the node it was,
and every edge of the edge list has `outputs_ready_` false and is otherwise the edge it
was.  No node of the store changes its path, its in-edge or its out-edges, no node or
edge is added or removed, and the path table, the default-target list, the rules, the
pools (`current_use_` and delayed queue included) and the warning log are unchanged. -/
theorem Reset_clears_status (s : State) :
    (∀ (k : String) (n : NodePtr) (node : Node), s.LookupNode k = some n →
      s.nodes[n]? = some node →
      s.Reset.nodes[n]? = some { node with status_ := Status.unknown }) ∧
    (∀ (i : Nat) (e : Edge), s.edges_[i]? = some e →
      s.Reset.edges_[i]? = some { e with outputs_ready_ := false }) ∧
    (∀ (n : NodePtr) (node : Node), s.nodes[n]? = some node →
      ∃ node' : Node, s.Reset.nodes[n]? = some node' ∧ node'.path_ = node.path_ ∧
        node'.in_edge_ = node.in_edge_ ∧ node'.out_edges_ = node.out_edges_) ∧
    s.Reset.nodes.length = s.nodes.length ∧
    s.Reset.edges_.length = s.edges_.length ∧
    s.Reset.paths_ = s.paths_ ∧
    s.Reset.defaults_ = s.defaults_ ∧
    s.Reset.pools_ = s.pools_ ∧
    s.Reset.rules_ = s.rules_ ∧
    s.Reset.warnings = s.warnings := by
  refine ⟨?_, ?_, ?_, State.reset_nodes_length _ _, by simp [State.Reset], rfl, rfl, rfl, rfl,
    rfl⟩
  · intro k n node hk hn
    have hmem : n ∈ s.paths_.map Prod.snd := mapFind_mem_values k n s.paths_ hk
    have := State.reset_nodes s.paths_ s.nodes n node hn
    rw [if_pos hmem] at this
    exact this
  · intro i e he
    simp [State.Reset, he]
  · intro n node hn
    have := State.reset_nodes s.paths_ s.nodes n node hn
    refine ⟨_, this, ?_, ?_, ?_⟩ <;> split <;> rfl

theorem staleState_graph :
    staleState.paths_ = chainState.paths_ ∧
    staleState.nodes.map (fun n => (n.path_, n.in_edge_, n.out_edges_)) =
      chainState.nodes.map (fun n => (n.path_, n.in_edge_, n.out_edges_)) ∧
    staleState.edges_.map (fun e => (e.rule_, e.pool_, e.inputs_, e.outputs_)) =
      chainState.edges_.map (fun e => (e.rule_, e.pool_, e.inputs_, e.outputs_)) := by
  decide

theorem Reset_clears_status_witness :
    staleState.LookupNode "A" = some 0 ∧
    staleState.nodes[0]? =
      some { path_ := "A", in_edge_ := none, out_edges_ := [0], status_ := Status.clean } ∧
    staleState.Reset.nodes[0]? =
      some { path_ := "A", in_edge_ := none, out_edges_ := [0], status_ := Status.unknown } ∧
    staleState.LookupNode "C" = some 2 ∧
    staleState.nodes[2]? =
      some { path_ := "C", in_edge_ := some 1, out_edges_ := [], status_ := Status.dirty } ∧
    staleState.Reset.nodes[2]? =
      some { path_ := "C", in_edge_ := some 1, out_edges_ := [], status_ := Status.unknown } ∧
    staleState.edges_[0]? =
      some { rule_ := kPhonyRule, pool_ := "", inputs_ := [0], outputs_ := [1],
             outputs_ready_ := true } ∧
    staleState.Reset.edges_[0]? =
      some { rule_ := kPhonyRule, pool_ := "", inputs_ := [0], outputs_ := [1],
             outputs_ready_ := false } ∧
    staleState.Reset ≠ staleState ∧
    staleState.Reset.defaults_ = [2] ∧
    staleState.Reset.LookupPool "link" =
      some { pool4 with current_use_ := 3, delayed_ := [1, 2] } :=
  have h := Reset_clears_status staleState
  ⟨by decide, by decide,
    h.1 "A" 0
      { path_ := "A", in_edge_ := none, out_edges_ := [0], status_ := Status.clean }
      (by decide) (by decide),
    by decide, by decide,
    h.1 "C" 2
      { path_ := "C", in_edge_ := some 1, out_edges_ := [], status_ := Status.dirty }
      (by decide) (by decide),
    by decide,
    h.2.1 0
      { rule_ := kPhonyRule, pool_ := "", inputs_ := [0], outputs_ := [1],
        outputs_ready_ := true }
      (by decide),
    by decide,
    h.2.2.2.2.2.2.1.trans (by decide),
    (congrArg (fun ps => mapFind "link" ps) h.2.2.2.2.2.2.2.1).trans (by decide)⟩

/-! ## Referential integrity -/

theorem getElem?_modify_some {α : Type} (f : α → α) (i m : Nat) (l : List α) (b : α)
    (h : (List.modify f i l)[m]? = some b) :
    ∃ a, l[m]? = some a ∧ b = if i = m then f a else a := by
  rw [List.getElem?_modify] at h
  cases hl : l[m]? with
  | none => simp [hl] at h
  | some a =>
    refine ⟨a, rfl, ?_⟩
    simp only [hl, Option.map_eq_map, Option.map_some', Option.some.injEq] at h
    exact h.symm

theorem getElem?_modify_of_some {α : Type} (f : α → α) (i m : Nat) (l : List α) (a : α)
    (h : l[m]? = some a) :
    (List.modify f i l)[m]? = some (if i = m then f a else a) := by
  rw [List.getElem?_modify, h]
  rfl

theorem getElem?_lt {α : Type} {l : List α} {m : Nat} {a : α} (h : l[m]? = some a) :
    m < l.length := by
  rcases Nat.lt_or_ge m l.length with hlt | hge
  · exact hlt
  · rw [List.getElem?_eq_none hge] at h
    cases h

theorem State.integrity_new : State.new.Integrity := by
  have hn : State.new.nodes = [] := by decide
  have he : State.new.edges_ = [] := by decide
  refine ⟨State.new_PathsOK_InputsOK.1, ?_, ?_, ?_, ?_, ?_, ?_⟩
  · intro n node h; rw [hn] at h; simp at h
  · intro i e h; rw [he] at h; simp at h
  · intro n node i e h; rw [hn] at h; simp at h
  · intro n node h; rw [hn] at h; simp at h
  · intro n node i h; rw [hn] at h; simp at h
  · intro i e h; rw [he] at h; simp at h

theorem State.integrity_AddEdge {s : State} (h : s.Integrity) (rule : Rule) (pool : String) :
    (s.AddEdge rule pool).1.Integrity := by
  have hedges : (s.AddEdge rule pool).1.edges_ = s.edges_ ++
      [{ rule_ := rule, pool_ := pool, inputs_ := [], outputs_ := [],
         outputs_ready_ := false }] := rfl
  have hnodes : (s.AddEdge rule pool).1.nodes = s.nodes := rfl
  have hlook : ∀ k, (s.AddEdge rule pool).1.LookupNode k = s.LookupNode k := fun _ => rfl
  have hget : ∀ (i : Nat) (e : Edge), (s.AddEdge rule pool).1.edges_[i]? = some e →
      s.edges_[i]? = some e ∨ (i = s.edges_.length ∧ e.inputs_ = [] ∧ e.outputs_ = []) := by
    intro i e he
    rw [hedges] at he
    rcases Nat.lt_or_ge i s.edges_.length with hlt | hge
    · rw [List.getElem?_append_left hlt] at he
      exact Or.inl he
    · rw [List.getElem?_append_right hge] at he
      cases hk : i - s.edges_.length with
      | zero =>
        rw [hk] at he
        simp only [List.getElem?_cons_zero, Option.some.injEq] at he
        exact Or.inr ⟨by omega, by rw [← he], by rw [← he]⟩
      | succ k =>
        rw [hk] at he
        simp at he
  have hmono : ∀ (i : Nat) (e : Edge), s.edges_[i]? = some e →
      (s.AddEdge rule pool).1.edges_[i]? = some e := by
    intro i e he
    rw [hedges, List.getElem?_append_left (getElem?_lt he)]
    exact he
  refine ⟨State.PathsOK_of rfl (NodesKeep.refl _) h.paths, ?_, ?_, ?_, ?_, ?_, ?_⟩
  · intro n node hn
    rw [hlook]
    exact h.registered n node hn
  · intro i e he n hmem
    rcases hget i e he with hold | ⟨_, hi, ho⟩
    · exact h.ptrs i e hold n hmem
    · rw [hi, ho] at hmem
      simp at hmem
  · intro n node i e hn he
    rcases hget i e he with hold | ⟨hi, hin, _⟩
    · exact h.counts n node i e hn hold
    · rw [hin, List.count_nil]
      apply List.count_eq_zero_of_not_mem
      intro hmem
      have := h.out_valid n node hn i hmem
      omega
  · intro n node hn j hj
    have := h.out_valid n node hn j hj
    rw [hedges]
    simp
    omega
  · intro n node i hn hin
    obtain ⟨e, he, hmem⟩ := h.in_edge n node i hn hin
    exact ⟨e, hmono i e he, hmem⟩
  · intro i e he n hmem
    rcases hget i e he with hold | ⟨_, _, ho⟩
    · exact h.produced i e hold n hmem
    · rw [ho] at hmem
      simp at hmem

theorem State.integrity_GetNode {s : State} (h : s.Integrity) (path : String) :
    (s.GetNode path).1.Integrity := by
  cases hl : s.LookupNode path with
  | some m => rw [State.GetNode_found hl]; exact h
  | none =>
    have hp := State.GetNode_PathsOK h.paths path
    rw [State.GetNode_fresh hl] at hp ⊢
    have hget : ∀ (n : Nat) (node : Node),
        (s.nodes ++ [Node.new path])[n]? = some node →
        s.nodes[n]? = some node ∨ (n = s.nodes.length ∧ node = Node.new path) := by
      intro n node hn
      rcases Nat.lt_or_ge n s.nodes.length with hlt | hge
      · rw [List.getElem?_append_left hlt] at hn
        exact Or.inl hn
      · rw [List.getElem?_append_right hge] at hn
        cases hk : n - s.nodes.length with
        | zero =>
          rw [hk] at hn
          simp only [List.getElem?_cons_zero, Option.some.injEq] at hn
          exact Or.inr ⟨by omega, hn.symm⟩
        | succ k =>
          rw [hk] at hn
          simp at hn
    have hmono : ∀ (n : Nat) (node : Node), s.nodes[n]? = some node →
        (s.nodes ++ [Node.new path])[n]? = some node := by
      intro n node hn
      rw [List.getElem?_append_left (getElem?_lt hn)]
      exact hn
    refine ⟨hp, ?_, ?_, ?_, ?_, ?_, ?_⟩
    · intro n node hn
      show mapFind node.path_ (mapAssign path s.nodes.length s.paths_) = some n
      rcases hget n node hn with hold | ⟨hn', hnode⟩
      · have hreg := h.registered n node hold
        have hne : node.path_ ≠ path := by
          intro heq
          rw [heq, hl] at hreg
          cases hreg
        rw [mapFind_mapAssign_ne _ _ _ _ hne]
        exact hreg
      · rw [hnode, hn']
        exact mapFind_mapAssign_self _ _ _
    · intro i e he n hmem
      have := h.ptrs i e he n hmem
      show n < (s.nodes ++ [Node.new path]).length
      simp
      omega
    · intro n node i e hn he
      rcases hget n node hn with hold | ⟨hn', hnode⟩
      · exact h.counts n node i e hold he
      · rw [hnode]
        show List.count i [] = List.count n e.inputs_
        rw [List.count_nil]
        symm
        apply List.count_eq_zero_of_not_mem
        intro hmem
        have := h.ptrs i e he n (Or.inl hmem)
        omega
    · intro n node hn j hj
      rcases hget n node hn with hold | ⟨_, hnode⟩
      · exact h.out_valid n node hold j hj
      · rw [hnode] at hj
        cases hj
    · intro n node i hn hin
      rcases hget n node hn with hold | ⟨_, hnode⟩
      · exact h.in_edge n node i hold hin
      · rw [hnode] at hin
        cases hin
    · intro i e he n hmem
      obtain ⟨node, hnode, hne⟩ := h.produced i e he n hmem
      exact ⟨node, hmono n node hnode, hne⟩

theorem State.integrity_of_AddIn {s t : State} (h : s.Integrity) (n edge : Nat) (nd : Node)
    (hn : s.nodes[n]? = some nd) (hedge : edge < s.edges_.length)
    (hp : t.paths_ = s.paths_)
    (hnodes : t.nodes = List.modify (fun x => x.AddOutEdge edge) n s.nodes)
    (hedges : t.edges_ =
      List.modify (fun e => { e with inputs_ := e.inputs_ ++ [n] }) edge s.edges_) :
    t.Integrity := by
  have hlook : ∀ k, t.LookupNode k = s.LookupNode k := by
    intro k; unfold State.LookupNode; rw [hp]
  have hnlen : t.nodes.length = s.nodes.length := by rw [hnodes, List.length_modify]
  have helen : t.edges_.length = s.edges_.length := by rw [hedges, List.length_modify]
  have hN : ∀ (m : Nat) (node' : Node), t.nodes[m]? = some node' →
      ∃ a : Node, s.nodes[m]? = some a ∧ node'.path_ = a.path_ ∧ node'.in_edge_ = a.in_edge_ ∧
        node'.out_edges_ = if n = m then a.out_edges_ ++ [edge] else a.out_edges_ := by
    intro m node' hm
    rw [hnodes] at hm
    obtain ⟨a, ha, hb⟩ := getElem?_modify_some _ _ _ _ _ hm
    refine ⟨a, ha, ?_⟩
    by_cases hnm : n = m
    · simp only [hnm, if_true] at hb ⊢
      rw [hb]
      exact ⟨rfl, rfl, rfl⟩
    · simp only [hnm, if_false] at hb ⊢
      rw [hb]
      exact ⟨rfl, rfl, rfl⟩
  have hN' : ∀ (m : Nat) (a : Node), s.nodes[m]? = some a →
      ∃ node' : Node, t.nodes[m]? = some node' ∧ node'.in_edge_ = a.in_edge_ := by
    intro m a ha
    rw [hnodes]
    refine ⟨_, getElem?_modify_of_some _ n m _ a ha, ?_⟩
    by_cases hnm : n = m <;> simp [hnm, Node.AddOutEdge]
  have hE : ∀ (i : Nat) (e' : Edge), t.edges_[i]? = some e' →
      ∃ e : Edge, s.edges_[i]? = some e ∧ e'.outputs_ = e.outputs_ ∧
        e'.inputs_ = if edge = i then e.inputs_ ++ [n] else e.inputs_ := by
    intro i e' hi
    rw [hedges] at hi
    obtain ⟨e, he, hb⟩ := getElem?_modify_some _ _ _ _ _ hi
    refine ⟨e, he, ?_⟩
    by_cases hei : edge = i
    · simp only [hei, if_true] at hb ⊢
      rw [hb]
      exact ⟨rfl, rfl⟩
    · simp only [hei, if_false] at hb ⊢
      rw [hb]
      exact ⟨rfl, rfl⟩
  have hE' : ∀ (i : Nat) (e : Edge), s.edges_[i]? = some e →
      ∃ e' : Edge, t.edges_[i]? = some e' ∧ e'.outputs_ = e.outputs_ := by
    intro i e he
    rw [hedges]
    refine ⟨_, getElem?_modify_of_some _ edge i _ e he, ?_⟩
    by_cases hei : edge = i <;> simp [hei]
  have hkeep : NodesKeep s.nodes t.nodes := by
    rw [hnodes]
    exact NodesKeep.modify _ _ _ (fun _ => rfl) (fun node e he => by
      show e ∈ node.out_edges_ ++ [edge]
      exact List.mem_append_left _ he)
  refine ⟨State.PathsOK_of hp hkeep h.paths, ?_, ?_, ?_, ?_, ?_, ?_⟩
  · intro m node' hm
    obtain ⟨a, ha, hpath, _, _⟩ := hN m node' hm
    rw [hlook, hpath]
    exact h.registered m a ha
  · intro i e' hi m hmem
    obtain ⟨e, he, hout, hin⟩ := hE i e' hi
    rw [hnlen]
    rw [hout, hin] at hmem
    have hnlt : n < s.nodes.length := getElem?_lt hn
    rcases hmem with hmem | hmem
    · by_cases hei : edge = i
      · simp only [hei, if_true] at hmem
        rcases List.mem_append.mp hmem with hmem | hmem
        · exact h.ptrs i e he m (Or.inl hmem)
        · rw [List.mem_singleton] at hmem
          omega
      · simp only [hei, if_false] at hmem
        exact h.ptrs i e he m (Or.inl hmem)
    · exact h.ptrs i e he m (Or.inr hmem)
  · intro m node' i e' hm hi
    obtain ⟨a, ha, _, _, hout⟩ := hN m node' hm
    obtain ⟨e, he, _, hin⟩ := hE i e' hi
    have hold := h.counts m a i e ha he
    rw [hout, hin]
    by_cases hnm : n = m <;> by_cases hei : edge = i
    · subst hnm; subst hei
      simp only [if_true, List.count_append, List.count_singleton_self]
      omega
    · have hie : ¬ i = edge := fun h' => hei h'.symm
      simp only [hnm, hei, if_true, if_false, List.count_append]
      rw [hold]
      simp [List.count_singleton, hie]
    · have hmn : ¬ m = n := fun h' => hnm h'.symm
      simp only [hnm, hei, if_true, if_false, List.count_append]
      rw [hold]
      simp [List.count_singleton, hmn]
    · simp only [hnm, hei, if_false]
      exact hold
  · intro m node' hm j hj
    obtain ⟨a, ha, _, _, hout⟩ := hN m node' hm
    rw [helen]
    rw [hout] at hj
    by_cases hnm : n = m
    · simp only [hnm, if_true] at hj
      rcases List.mem_append.mp hj with hj | hj
      · exact h.out_valid m a ha j hj
      · rw [List.mem_singleton] at hj
        omega
    · simp only [hnm, if_false] at hj
      exact h.out_valid m a ha j hj
  · intro m node' i hm hin
    obtain ⟨a, ha, _, hie, _⟩ := hN m node' hm
    rw [hie] at hin
    obtain ⟨e, he, hmem⟩ := h.in_edge m a i ha hin
    obtain ⟨e', he', hout⟩ := hE' i e he
    exact ⟨e', he', by rw [hout]; exact hmem⟩
  · intro i e' hi m hmem
    obtain ⟨e, he, hout, _⟩ := hE i e' hi
    rw [hout] at hmem
    obtain ⟨a, ha, hne⟩ := h.produced i e he m hmem
    obtain ⟨node', hm', hie⟩ := hN' m a ha
    exact ⟨node', hm', by rw [hie]; exact hne⟩

theorem State.integrity_AddIn {s : State} (h : s.Integrity) (edge : EdgePtr) (path : String)
    (hedge : edge < s.edges_.length) : (s.AddIn edge path).Integrity := by
  have h1 := State.integrity_GetNode h path
  obtain ⟨nd, hnd, _⟩ := State.GetNode_node_path h.paths path
  obtain ⟨hp, hn, he, _⟩ := State.AddIn_fields s edge path
  have hes := (State.GetNode_frame s path).1
  refine State.integrity_of_AddIn h1 (s.GetNode path).2 edge nd hnd (by rw [hes]; exact hedge)
    hp hn ?_
  rw [he, hes]

theorem State.integrity_of_AddOut {s t : State} (h : s.Integrity) (n edge : Nat) (nd : Node)
    (hn : s.nodes[n]? = some nd) (hedge : edge < s.edges_.length)
    (hp : t.paths_ = s.paths_)
    (hnodes : t.nodes = List.modify (fun x => x.set_in_edge edge) n s.nodes)
    (hedges : t.edges_ =
      List.modify (fun e => { e with outputs_ := e.outputs_ ++ [n] }) edge s.edges_) :
    t.Integrity := by
  have hlook : ∀ k, t.LookupNode k = s.LookupNode k := by
    intro k; unfold State.LookupNode; rw [hp]
  have hnlen : t.nodes.length = s.nodes.length := by rw [hnodes, List.length_modify]
  have helen : t.edges_.length = s.edges_.length := by rw [hedges, List.length_modify]
  have hN : ∀ (m : Nat) (node' : Node), t.nodes[m]? = some node' →
      ∃ a : Node, s.nodes[m]? = some a ∧ node'.path_ = a.path_ ∧
        node'.out_edges_ = a.out_edges_ ∧
        node'.in_edge_ = if n = m then some edge else a.in_edge_ := by
    intro m node' hm
    rw [hnodes] at hm
    obtain ⟨a, ha, hb⟩ := getElem?_modify_some _ _ _ _ _ hm
    refine ⟨a, ha, ?_⟩
    by_cases hnm : n = m
    · simp only [hnm, if_true] at hb ⊢
      rw [hb]
      exact ⟨rfl, rfl, rfl⟩
    · simp only [hnm, if_false] at hb ⊢
      rw [hb]
      exact ⟨rfl, rfl, rfl⟩
  have hN' : ∀ (m : Nat) (a : Node), s.nodes[m]? = some a →
      ∃ node' : Node, t.nodes[m]? = some node' ∧
        node'.in_edge_ = if n = m then some edge else a.in_edge_ := by
    intro m a ha
    rw [hnodes]
    refine ⟨_, getElem?_modify_of_some _ n m _ a ha, ?_⟩
    by_cases hnm : n = m <;> simp [hnm, Node.set_in_edge]
  have hE : ∀ (i : Nat) (e' : Edge), t.edges_[i]? = some e' →
      ∃ e : Edge, s.edges_[i]? = some e ∧ e'.inputs_ = e.inputs_ ∧
        e'.outputs_ = if edge = i then e.outputs_ ++ [n] else e.outputs_ := by
    intro i e' hi
    rw [hedges] at hi
    obtain ⟨e, he, hb⟩ := getElem?_modify_some _ _ _ _ _ hi
    refine ⟨e, he, ?_⟩
    by_cases hei : edge = i
    · simp only [hei, if_true] at hb ⊢
      rw [hb]
      exact ⟨rfl, rfl⟩
    · simp only [hei, if_false] at hb ⊢
      rw [hb]
      exact ⟨rfl, rfl⟩
  have hE' : ∀ (i : Nat) (e : Edge), s.edges_[i]? = some e →
      ∃ e' : Edge, t.edges_[i]? = some e' ∧
        e'.outputs_ = if edge = i then e.outputs_ ++ [n] else e.outputs_ := by
    intro i e he
    rw [hedges]
    refine ⟨_, getElem?_modify_of_some _ edge i _ e he, ?_⟩
    by_cases hei : edge = i <;> simp [hei]
  have hkeep : NodesKeep s.nodes t.nodes := by
    rw [hnodes]
    exact NodesKeep.modify _ _ _ (fun _ => rfl) (fun _ _ he => he)
  have hnlt : n < s.nodes.length := getElem?_lt hn
  refine ⟨State.PathsOK_of hp hkeep h.paths, ?_, ?_, ?_, ?_, ?_, ?_⟩
  · intro m node' hm
    obtain ⟨a, ha, hpath, _, _⟩ := hN m node' hm
    rw [hlook, hpath]
    exact h.registered m a ha
  · intro i e' hi m hmem
    obtain ⟨e, he, hin, hout⟩ := hE i e' hi
    rw [hnlen]
    rw [hout, hin] at hmem
    rcases hmem with hmem | hmem
    · exact h.ptrs i e he m (Or.inl hmem)
    · by_cases hei : edge = i
      · simp only [hei, if_true] at hmem
        rcases List.mem_append.mp hmem with hmem | hmem
        · exact h.ptrs i e he m (Or.inr hmem)
        · rw [List.mem_singleton] at hmem
          omega
      · simp only [hei, if_false] at hmem
        exact h.ptrs i e he m (Or.inr hmem)
  · intro m node' i e' hm hi
    obtain ⟨a, ha, _, hout, _⟩ := hN m node' hm
    obtain ⟨e, he, hin, _⟩ := hE i e' hi
    rw [hout, hin]
    exact h.counts m a i e ha he
  · intro m node' hm j hj
    obtain ⟨a, ha, _, hout, _⟩ := hN m node' hm
    rw [helen]
    rw [hout] at hj
    exact h.out_valid m a ha j hj
  · intro m node' i hm hin
    obtain ⟨a, ha, _, _, hie⟩ := hN m node' hm
    rw [hie] at hin
    by_cases hnm : n = m
    · simp only [hnm, if_true, Option.some.injEq] at hin
      have hlt : edge < s.edges_.length := hedge
      obtain ⟨e, he⟩ : ∃ e, s.edges_[edge]? = some e := ⟨s.edges_[edge], by simp [hlt]⟩
      obtain ⟨e', he', hout⟩ := hE' edge e he
      simp only [if_true] at hout
      refine ⟨e', by rw [← hin]; exact he', ?_⟩
      rw [hout, hnm]
      simp
    · simp only [hnm, if_false] at hin
      obtain ⟨e, he, hmem⟩ := h.in_edge m a i ha hin
      obtain ⟨e', he', hout⟩ := hE' i e he
      refine ⟨e', he', ?_⟩
      rw [hout]
      by_cases hei : edge = i
      · simp only [hei, if_true]
        exact List.mem_append_left _ hmem
      · simp only [hei, if_false]
        exact hmem
  · intro i e' hi m hmem
    obtain ⟨e, he, _, hout⟩ := hE i e' hi
    rw [hout] at hmem
    have hnew : ∃ node : Node, t.nodes[n]? = some node ∧ node.in_edge_ ≠ none := by
      obtain ⟨node', hm', hie⟩ := hN' n nd hn
      refine ⟨node', hm', ?_⟩
      rw [hie]
      simp
    have hold : m ∈ e.outputs_ → ∃ node : Node, t.nodes[m]? = some node ∧
        node.in_edge_ ≠ none := by
      intro hmem'
      obtain ⟨a, ha, hne⟩ := h.produced i e he m hmem'
      obtain ⟨node', hm', hie⟩ := hN' m a ha
      refine ⟨node', hm', ?_⟩
      rw [hie]
      by_cases hnm : n = m
      · simp [hnm]
      · simp only [hnm, if_false]
        exact hne
    by_cases hei : edge = i
    · simp only [hei, if_true] at hmem
      rcases List.mem_append.mp hmem with hmem | hmem
      · exact hold hmem
      · rw [List.mem_singleton] at hmem
        rw [hmem]
        exact hnew
    · simp only [hei, if_false] at hmem
      exact hold hmem

theorem State.integrity_AddOut {s : State} (h : s.Integrity) (edge : EdgePtr) (path : String)
    (hedge : edge < s.edges_.length) : (s.AddOut edge path).Integrity := by
  have h1 := State.integrity_GetNode h path
  obtain ⟨nd, hnd, _⟩ := State.GetNode_node_path h.paths path
  obtain ⟨hp, hn, he, _⟩ := State.AddOut_fields s edge path
  have hes := (State.GetNode_frame s path).1
  refine State.integrity_of_AddOut h1 (s.GetNode path).2 edge nd hnd (by rw [hes]; exact hedge)
    hp hn ?_
  rw [he, hes]

theorem State.Built.integrity {s : State} (h : s.Built) : s.Integrity := by
  induction h with
  | new => exact State.integrity_new
  | AddEdge rule pool _ ih => exact State.integrity_AddEdge ih rule pool
  | GetNode path _ ih => exact State.integrity_GetNode ih path
  | AddIn edge path _ hedge ih => exact State.integrity_AddIn ih edge path hedge
  | AddOut edge path _ hedge ih => exact State.integrity_AddOut ih edge path hedge

/-- C17. In every state built from a fresh `State` by `AddEdge`, `GetNode`, `AddIn` and
`AddOut` calls on edges of the edge list, for every node of the store (every registered
node is one) and every edge of the edge list: the edge occurs among the out-edges of the
node as often as the node occurs among the inputs of the edge; when the in-edge of the
node is an edge, that edge is in the edge list and has the node among its outputs; every
node in the store is registered in the path table under its own path; and every node an
edge lists as input or output is such a node of the store. -/
theorem referential_integrity (s : State) (hb : s.Built) :
    (∀ (n : NodePtr) (node : Node) (i : EdgePtr) (e : Edge),
      s.nodes[n]? = some node → s.edges_[i]? = some e →
      List.count i node.out_edges_ = List.count n e.inputs_) ∧
    (∀ (n : NodePtr) (node : Node) (i : EdgePtr), s.nodes[n]? = some node →
      node.in_edge_ = some i → ∃ e : Edge, s.edges_[i]? = some e ∧ n ∈ e.outputs_) ∧
    (∀ (k : String) (n : NodePtr), s.LookupNode k = some n →
      ∃ node : Node, s.nodes[n]? = some node ∧ node.path_ = k) ∧
    (∀ (n : NodePtr) (node : Node), s.nodes[n]? = some node →
      s.LookupNode node.path_ = some n) ∧
    (∀ (i : EdgePtr) (e : Edge), s.edges_[i]? = some e →
      ∀ n : NodePtr, n ∈ e.inputs_ ∨ n ∈ e.outputs_ →
        ∃ node : Node, s.nodes[n]? = some node ∧ s.LookupNode node.path_ = some n) := by
  have h := hb.integrity
  refine ⟨h.counts, h.in_edge, h.paths, h.registered, ?_⟩
  intro i e he n hmem
  have hlt := h.ptrs i e he n hmem
  refine ⟨s.nodes[n], by simp [hlt], ?_⟩
  exact h.registered n _ (by simp [hlt])

theorem State.Built.of_chainState : chainState.Built :=
  .AddOut 1 "C" (.AddIn 1 "B" (.AddEdge kPhonyRule ""
    (.AddOut 0 "B" (.AddIn 0 "A" (.AddEdge kPhonyRule "" .new) (by decide)) (by decide)))
    (by decide)) (by decide)

theorem referential_integrity_witness :
    chainState.Built ∧
    (∀ (n : NodePtr) (node : Node) (i : EdgePtr) (e : Edge),
      chainState.nodes[n]? = some node → chainState.edges_[i]? = some e →
      List.count i node.out_edges_ = List.count n e.inputs_) ∧
    (∀ (n : NodePtr) (node : Node), chainState.nodes[n]? = some node →
      chainState.LookupNode node.path_ = some n) :=
  have h := referential_integrity chainState State.Built.of_chainState
  ⟨State.Built.of_chainState, h.1, h.2.2.2.1⟩

theorem State.RootNodes_of_roots (s : State) (err : String) (h : s.rootScan ≠ []) :
    s.RootNodes err = some (s.rootScan, err) := by
  unfold State.RootNodes
  simp only [List.isEmpty_iff]
  rw [if_pos (Or.inr h)]
  have : ¬ (¬ s.edges_ = [] ∧ s.rootScan = []) := fun h' => h h'.2
  rw [if_neg this]

theorem State.RootNodes_of_no_roots (s : State) (err : String) (he : s.edges_ ≠ [])
    (h : s.rootScan = []) : s.RootNodes err = none := by
  unfold State.RootNodes
  simp only [List.isEmpty_iff]
  have : ¬ (s.edges_ = [] ∨ ¬ s.rootScan = []) := by
    rintro (h' | h')
    · exact he h'
    · exact h' h
  rw [if_neg this]

theorem cycleState_not_acyclic : ¬ cycleState.Acyclic := by
  rintro ⟨rank, hrank⟩
  have h01 := hrank
    (0, { rule_ := kPhonyRule, pool_ := "", inputs_ := [0], outputs_ := [1],
          outputs_ready_ := false }) (by decide)
    (1, { rule_ := kPhonyRule, pool_ := "", inputs_ := [1], outputs_ := [0],
          outputs_ready_ := false }) (by decide) 1 (by decide) (by decide)
  have h10 := hrank
    (1, { rule_ := kPhonyRule, pool_ := "", inputs_ := [1], outputs_ := [0],
          outputs_ready_ := false }) (by decide)
    (0, { rule_ := kPhonyRule, pool_ := "", inputs_ := [0], outputs_ := [1],
          outputs_ready_ := false }) (by decide) 0 (by decide) (by decide)
  simp only at h01 h10
  omega

/-- C16, as the code has it.  In a state built from a fresh `State` by `AddEdge`,
`GetNode`, `AddIn` and `AddOut` calls on edges of the edge list, when the edge list is
not empty, every edge has at least one output and the graph has no cycle, `RootNodes`
returns a non-empty list: its final assertion holds and the error is left alone. -/
theorem RootNodes_nonempty (s : State) (hb : s.Built) (hne : s.edges_ ≠ [])
    (hout : ∀ e ∈ s.edges_, e.outputs_ ≠ []) (hac : s.Acyclic) (err : String) :
    ∃ roots, s.RootNodes err = some (roots, err) ∧ roots ≠ [] := by
  have h := hb.integrity
  obtain ⟨rank, hrank⟩ := hac
  have hpos : 0 < s.edges_.length := List.length_pos.mpr hne
  obtain ⟨i, hi, hmax⟩ := Finset.exists_max_image (Finset.range s.edges_.length) rank
    ⟨0, Finset.mem_range.mpr hpos⟩
  rw [Finset.mem_range] at hi
  have hei : s.edges_[i]? = some s.edges_[i] := by simp [hi]
  obtain ⟨n, hn⟩ := List.exists_mem_of_ne_nil _ (hout _ (List.getElem_mem hi))
  have hroot : s.out_edges n = [] := by
    unfold State.out_edges
    cases hnode : s.nodes[n]? with
    | none => rfl
    | some node =>
      show node.out_edges_ = []
      apply List.eq_nil_iff_forall_not_mem.mpr
      intro j hj
      have hjlt := h.out_valid n node hnode j hj
      have hej : s.edges_[j]? = some s.edges_[j] := by simp [hjlt]
      have hcount := h.counts n node j _ hnode hej
      have hin : n ∈ (s.edges_[j]).inputs_ := by
        rw [← List.count_pos_iff, ← hcount, List.count_pos_iff]
        exact hj
      have h1 := hrank (i, s.edges_[i]) (List.mk_mem_enum_iff_getElem?.mpr hei)
        (j, s.edges_[j]) (List.mk_mem_enum_iff_getElem?.mpr hej) n hn hin
      have h2 := hmax j (Finset.mem_range.mpr hjlt)
      simp only at h1
      omega
  have hmem : n ∈ s.rootScan := by
    rw [State.rootScan_eq, List.mem_filter, List.mem_flatMap, List.isEmpty_iff]
    exact ⟨⟨_, List.getElem_mem hi, hn⟩, hroot⟩
  have hne' : s.rootScan ≠ [] := List.ne_nil_of_mem hmem
  exact ⟨s.rootScan, State.RootNodes_of_roots s err hne', hne'⟩

theorem RootNodes_nonempty_witness :
    chainState.Built ∧ chainState.edges_ ≠ [] ∧ (∀ e ∈ chainState.edges_, e.outputs_ ≠ []) ∧
    chainState.Acyclic ∧
    ∃ roots, chainState.RootNodes "" = some (roots, "") ∧ roots ≠ [] :=
  have hac : chainState.Acyclic := ⟨fun i => i, by decide⟩
  ⟨State.Built.of_chainState, by decide, by decide, hac,
    RootNodes_nonempty chainState State.Built.of_chainState (by decide) (by decide) hac ""⟩

/-- C16, as stated, fails.  After a single `AddEdge` the edge list is not empty and no
node is an output, so `RootNodes` collects nothing and its final assertion fails.  The
same happens for the graph in which edge `0` reads `a` and produces `b` and edge `1`
reads `b` and produces `a`, where every edge has an output. -/
theorem RootNodes_nonempty_counterexample :
    (State.new.AddEdge kPhonyRule "").1.Built ∧
    (State.new.AddEdge kPhonyRule "").1.edges_ ≠ [] ∧
    (State.new.AddEdge kPhonyRule "").1.rootScan = [] ∧
    (State.new.AddEdge kPhonyRule "").1.RootNodes "" = none ∧
    cycleState.Built ∧ cycleState.edges_ ≠ [] ∧
    (∀ e ∈ cycleState.edges_, e.outputs_ ≠ []) ∧
    cycleState.rootScan = [] ∧ cycleState.RootNodes "" = none :=
  ⟨.AddEdge kPhonyRule "" .new, by decide, by decide, by decide,
    .AddOut 1 "a" (.AddIn 1 "b" (.AddEdge kPhonyRule ""
      (.AddOut 0 "b" (.AddIn 0 "a" (.AddEdge kPhonyRule "" .new) (by decide)) (by decide)))
      (by decide)) (by decide),
    by decide, by decide, by decide, by decide⟩

theorem flatMap_outputs_modify_inputs (f : Edge → Edge) (hf : ∀ e, (f e).outputs_ = e.outputs_)
    (i : Nat) (l : List Edge) :
    (List.modify f i l).flatMap (fun e => e.outputs_) = l.flatMap (fun e => e.outputs_) := by
  induction l generalizing i with
  | nil => cases i <;> rfl
  | cons e l ih =>
    cases i with
    | zero => simp [List.flatMap_cons, hf]
    | succ i =>
      rw [List.modify_succ_cons, List.flatMap_cons, List.flatMap_cons, ih]

theorem flatMap_outputs_modify_outputs (n : NodePtr) (i : Nat) (l : List Edge)
    (hi : i < l.length) :
    ((List.modify (fun e => { e with outputs_ := e.outputs_ ++ [n] }) i l).flatMap
      (fun e => e.outputs_)).Perm (n :: l.flatMap (fun e => e.outputs_)) := by
  induction l generalizing i with
  | nil => simp at hi
  | cons e l ih =>
    cases i with
    | zero =>
      simp only [List.modify_zero_cons, List.flatMap_cons, List.append_assoc,
        List.singleton_append]
      exact List.perm_middle
    | succ i =>
      rw [List.modify_succ_cons, List.flatMap_cons, List.flatMap_cons]
      have := ih i (by simpa using hi)
      exact (List.Perm.append_left e.outputs_ this).trans List.perm_middle

theorem State.Built.outputs_nodup {s : State} (h : s.Built) :
    s.warnings = [] → (s.edges_.flatMap (fun e => e.outputs_)).Nodup := by
  induction h with
  | new => intro _; decide
  | @AddEdge s rule pool _ ih =>
    intro hw
    have := ih hw
    simpa [State.AddEdge, List.flatMap_append] using this
  | @GetNode s path _ ih =>
    intro hw
    obtain ⟨he, _, _, _, hw'⟩ := State.GetNode_frame s path
    rw [he]
    exact ih (hw' ▸ hw)
  | @AddIn s edge path _ _ ih =>
    intro hw
    obtain ⟨_, _, he, _, hw', _⟩ := State.AddIn_fields s edge path
    rw [he, flatMap_outputs_modify_inputs
      (fun e => { e with inputs_ := e.inputs_ ++ [(s.GetNode path).2] }) (fun _ => rfl)]
    exact ih (hw' ▸ hw)
  | @AddOut s edge path hb hedge ih =>
    intro hw
    have hint := hb.integrity
    have hwarn := State.AddOut_warnings hint.paths edge path
    rw [hw] at hwarn
    have hprod : s.producer path = none := by
      by_contra hne
      rw [if_pos hne] at hwarn
      exact List.append_ne_nil_of_right_ne_nil _ (List.cons_ne_nil _ _) hwarn.symm
    have hw0 : s.warnings = [] := by
      rw [if_neg (not_not.mpr hprod)] at hwarn
      exact hwarn.symm
    have hnd := ih hw0
    obtain ⟨_, _, he, _⟩ := State.AddOut_fields s edge path
    rw [he]
    refine (flatMap_outputs_modify_outputs _ edge s.edges_ hedge).nodup_iff.mpr ?_
    rw [List.nodup_cons]
    refine ⟨?_, hnd⟩
    intro hmem
    obtain ⟨e, he', hn⟩ := List.mem_flatMap.mp hmem
    obtain ⟨i, hi⟩ := List.getElem?_of_mem he'
    have h1 := State.integrity_GetNode hint path
    obtain ⟨nd, hnd', _⟩ := State.GetNode_node_path hint.paths path
    have hin := State.GetNode_in_edge s path nd hnd'
    obtain ⟨node, hnode, hne⟩ := h1.produced i e
      (by rw [(State.GetNode_frame s path).1]; exact hi) _ hn
    rw [hnd'] at hnode
    simp only [Option.some.injEq] at hnode
    rw [← hnode, hin, hprod] at hne
    exact hne rfl

/-- C20, as the code has it.  In a state built from a fresh `State` by `AddEdge`,
`GetNode`, `AddIn` and `AddOut` calls on edges of the edge list during which no warning
about multiple rules was logged (no node was made an output after it had a producer),
no node is an output twice, and the list `RootNodes` collects and returns contains no
node twice. -/
theorem RootNodes_nodup (s : State) (hb : s.Built) (hw : s.warnings = []) (err : String) :
    (s.edges_.flatMap (fun e => e.outputs_)).Nodup ∧
    s.rootScan.Nodup ∧
    (∀ roots err', s.RootNodes err = some (roots, err') → roots.Nodup) := by
  have hnd := hb.outputs_nodup hw
  have hscan : s.rootScan.Nodup := by
    rw [State.rootScan_eq]
    exact hnd.filter _
  refine ⟨hnd, hscan, ?_⟩
  intro roots err' hret
  by_cases hroots : s.rootScan = []
  · by_cases he : s.edges_ = []
    · unfold State.RootNodes at hret
      simp [he, hroots] at hret
      rw [hret.1]
      exact List.nodup_nil
    · rw [State.RootNodes_of_no_roots s err he hroots] at hret
      cases hret
  · rw [State.RootNodes_of_roots s err hroots] at hret
    simp only [Option.some.injEq, Prod.mk.injEq] at hret
    rw [← hret.1]
    exact hscan

theorem RootNodes_nodup_witness :
    chainState.Built ∧ chainState.warnings = [] ∧
    (chainState.edges_.flatMap (fun e => e.outputs_)).Nodup ∧
    chainState.rootScan.Nodup ∧
    (∀ roots err', chainState.RootNodes "" = some (roots, err') → roots.Nodup) :=
  ⟨State.Built.of_chainState, by decide,
    RootNodes_nodup chainState State.Built.of_chainState (by decide) ""⟩

/-- C20, as stated, fails.  When `AddOut` makes the same path an output of two edges
(the second call logs the warning about multiple rules and goes on), the node of the
path is an output of both and has no out-edge, so `RootNodes` returns it twice. -/
theorem RootNodes_nodup_counterexample :
    twiceProducedState.Built ∧
    twiceProducedState.warnings = [State.multipleRulesWarning "x"] ∧
    twiceProducedState.RootNodes "" = some ([0, 0], "") ∧
    ¬ ([0, 0] : List NodePtr).Nodup :=
  ⟨.AddOut 1 "x" (.AddOut 0 "x" (.AddEdge kPhonyRule "" (.AddEdge kPhonyRule "" .new))
      (by decide)) (by decide),
    by decide, by decide, by decide⟩

end Ninja
